import Mathlib

/-!
Verification development for the ML service of the PHARMA-x-MISIS backend
(`src/ml/server.py`).  The Python module is shallowly embedded: every pure
function of the source is translated into a computable Lean definition, the
process-wide mutable cache becomes explicit state passing, Python exceptions
become `Except` (or an explicit result type), and IEEE floats are idealized
as exact rationals (`ℚ`), with real numbers (`ℝ`) appearing only in theorem
statements that talk about square roots of rationals.

Strings are modelled as lists over `MChar`, a restricted character model rich
enough to express the Unicode NFC behaviour the code depends on: the letters
`е` (U+0435) and `ё` (U+0451) and the combining diaeresis (U+0308) — `ё`
canonically decomposes to `е` + diaeresis and NFC recomposes an unblocked
pair — plus a constructor `ch c` for any other character that has no
canonical decomposition, does not canonically compose with the combining
diaeresis, and on which Python's `str.lower`/whitespace behaviour agrees
with `Char.toLower`/`Char.isWhitespace` (true of ASCII consonants, digits,
punctuation, and the lowercase Cyrillic letters used by the code's synonym
table).  All NFC reasoning in this file happens inside that repertoire.
-/

namespace MLServer

/-- Model characters; see the module docstring. -/
inductive MChar : Type
  /-- Cyrillic small letter ie, U+0435. -/
  | ye : MChar
  /-- Cyrillic small letter io, U+0451; canonically `ye` + `dia`. -/
  | yo : MChar
  /-- Combining diaeresis, U+0308 (canonical combining class 230). -/
  | dia : MChar
  /-- Any other character with no relevant Unicode behaviour. -/
  | ch (c : Char) : MChar
  deriving DecidableEq

/-- Model strings. -/
abbrev MStr := List MChar

/-- Embed a Lean string literal into the model, routing the special
characters to their dedicated constructors. -/
def mkS (s : String) : MStr :=
  s.data.map fun c =>
    if c = 'е' then MChar.ye
    else if c = 'ё' then MChar.yo
    else if c = '̈' then MChar.dia
    else MChar.ch c

/-- Canonical decomposition of one model character (`ё` ↦ `е` + ◌̈). -/
def decomposeC : MChar → List MChar
  | .yo => [.ye, .dia]
  | c => [c]

/-- Canonical decomposition of a model string. -/
def decomposeM (s : MStr) : MStr := (s.map decomposeC).flatten

/-- Canonical composition pass: an `е` immediately followed by a combining
diaeresis composes to `ё`; a further diaeresis is blocked (equal combining
class).  This is the Unicode canonical composition algorithm restricted to
the model repertoire, where the only composable pair is `е` + ◌̈. -/
def composeM : MStr → MStr
  | [] => []
  | .ye :: .dia :: rest => .yo :: composeM rest
  | c :: rest => c :: composeM rest

/-- `unicodedata.normalize("NFC", s)` on the model repertoire: canonical
decomposition followed by canonical composition (no canonical reordering is
needed because the repertoire has a single combining mark). -/
def nfc (s : MStr) : MStr := composeM (decomposeM s)

/-- Python `str.strip`'s notion of whitespace, restricted to the model. -/
def isWS : MChar → Bool
  | .ch c => c.isWhitespace
  | _ => false

/-- Python `str.strip`: drop whitespace from both ends. -/
def stripM (s : MStr) : MStr := List.rdropWhile isWS (s.dropWhile isWS)

/-- Python `s.replace("ё", "е")`. -/
def foldYo (s : MStr) : MStr := s.map fun c => if c = .yo then .ye else c

/-- `_normalize_text` (src/ml/server.py:60-65): NFC, fold `ё` to `е`, strip.
The `isinstance` guard (non-string input yields `""`) is represented at the
call sites, which pass `description or ""` so the argument is a string. -/
def normalizeText (s : MStr) : MStr := stripM (foldYo (nfc s))

/-- `true` iff the string contains no `ё`. -/
def noYo (s : MStr) : Bool := s.all (· ≠ .yo)

/-- `true` iff the string has no `е` immediately followed by ◌̈, i.e. no pair
that a further NFC pass would compose. -/
def noYeDia : MStr → Bool
  | .ye :: .dia :: _ => false
  | _ :: rest => noYeDia rest
  | [] => true

/-- `true` iff the string has no `ё` immediately followed by ◌̈.  Such a pair
is exactly what makes the `ё`→`е` fold of `_normalize_text` create a freshly
composable `е` + ◌̈ pair. -/
def noYoDia : MStr → Bool
  | .yo :: .dia :: _ => false
  | _ :: rest => noYoDia rest
  | [] => true

/-!
## Classifier artifacts and prediction (server.py:93-146)

The sklearn pipeline is opaque in the source (`joblib.load` of a model
file); it is embedded as an arbitrary function from normalized text to a
score vector.  Float arithmetic is idealized as an arbitrary linear ordered
field `α`, and `np.exp` is a parameter `exp : α → α`: instantiating
`α := ℝ`, `exp := Real.exp` gives the code's exact formulas, theorems hold
for every instantiation, and witnesses instantiate `α := ℚ` with a
computable `exp`.  The `np.argsort` call is likewise a parameter,
constrained only by the contract its default unstable kind documents
(`ArgsortSpec` below).
-/

/-- The process globals `PIPE`, `LABELS`, `THRESHOLDS` after a successful
`load_artifacts` (`None`-ness of `THRESHOLDS` means "use the uniform
default"). -/
structure MLState (α : Type) where
  pipe : MStr → List α
  labels : List String
  thresholds : Option (List α)

/-- The artifact directory contents: `tfidf_logreg_ovr.joblib`,
`labels.json`, and the optional `thresholds.npy`, each `none` when the file
is absent. -/
structure ArtifactFiles (α : Type) where
  model : Option (MStr → List α)
  labels : Option (List String)
  thresholds : Option (List α)

/-- `load_artifacts` (server.py:93-122): requires the model and label files,
failing with the list of missing file names; an optional thresholds vector
whose length differs from the label count is discarded (`THRESHOLDS = None`,
after a logged warning that is not modelled). -/
def loadArtifacts {α : Type} (files : ArtifactFiles α) :
    Except (List String) (MLState α) :=
  match files.model, files.labels with
  | none, none => .error ["tfidf_logreg_ovr.joblib", "labels.json"]
  | none, some _ => .error ["tfidf_logreg_ovr.joblib"]
  | some _, none => .error ["labels.json"]
  | some m, some ls =>
      .ok { pipe := m, labels := ls,
            thresholds :=
              match files.thresholds with
              | some t => if t.length ≠ ls.length then none else some t
              | none => none }

/-- `1.0 / (1.0 + np.exp(-score))` (server.py:139) with the exponential a
parameter. -/
def sigmoid {α : Type} [LinearOrderedField α] (exp : α → α) (x : α) : α :=
  1 / (1 + exp (-x))

/-- The contract numpy documents for `np.argsort(-v)` with the call's
default `kind='quicksort'` (server.py:145): the result is a permutation of
`range v.length` ordered by value descending — and nothing more.  The
default kind is documented as *not stable*, so the relative order of equal
values is left unspecified.  The embedding therefore takes the argsort
function as a parameter of `predictLabels`, and properties of the program
are those holding for *every* implementation satisfying this contract —
numpy's introsort included, whatever order it leaves ties in. -/
def ArgsortSpec {α : Type} [LinearOrderedField α]
    (argsort : List α → List Nat) : Prop :=
  ∀ v : List α, (argsort v).Perm (List.range v.length) ∧
    List.Sorted (fun p q => v.getD q 0 ≤ v.getD p 0) (argsort v)

/-- One implementation satisfying `ArgsortSpec`: ties resolved toward the
original index order (the behaviour `kind="stable"` would guarantee, and
the one the spec's tie sentence describes).  Not claimed to reproduce the
tie order of the source's default-kind call. -/
def argsortDesc {α : Type} [LinearOrderedField α] (v : List α) : List Nat :=
  List.insertionSort
    (fun i j => v.getD j 0 < v.getD i 0 ∨ (v.getD i 0 = v.getD j 0 ∧ i ≤ j))
    (List.range v.length)

/-- A second implementation satisfying `ArgsortSpec`, with the opposite
tie-break (original index order reversed): together with `argsortDesc` it
shows the contract does not determine the order of equal values. -/
def argsortDescRev {α : Type} [LinearOrderedField α] (v : List α) : List Nat :=
  List.insertionSort
    (fun i j => v.getD j 0 < v.getD i 0 ∨ (v.getD i 0 = v.getD j 0 ∧ j ≤ i))
    (List.range v.length)

/-- `predict_labels` (server.py:130-146) on an already-loaded artifact
state, with the `np.argsort` implementation a parameter (see
`ArgsortSpec`).  The lazy `load_artifacts()` on first use (lines 131-132)
is outside this function: `MLState` models the globals after a successful
load, which is what the claims about prediction assume.  `DEFAULT_THR` is
`dthr`.  The `getD` defaults are never reached when the score and
threshold vectors have the label count's length, the shape on which the
numpy expressions are defined. -/
def predictLabels {α : Type} [LinearOrderedField α]
    (argsort : List α → List Nat) (exp : α → α) (dthr : α)
    (st : MLState α) (desc : Option MStr) : List String :=
  let text := normalizeText (desc.getD [])
  if text = [] then []
  else
    let scores := st.pipe text
    let probs := scores.map (sigmoid exp)
    let thresholds := st.thresholds.getD (List.replicate st.labels.length dthr)
    let idx := (List.range st.labels.length).filter
      (fun i => thresholds.getD i dthr ≤ probs.getD i 0)
    if idx = [] then []
    else
      let sub := idx.map (fun i => probs.getD i 0)
      ((argsort sub).map (fun p => idx.getD p 0)).map
        (fun i => st.labels.getD i "")

/-!
## Catalog cache and paginated fetch (server.py:54-55, 164-200)

The two module globals `_cache_comm` and `_cache_posts` are slots
`{"ts": 0.0, "items": []}`; `_get_communities` and `_get_posts` are the
same code on the respective slot and endpoint, modelled once as `cacheGet`
with the slot passed explicitly.  The outcome the paginated fetch would
have is a parameter (`.ok items` for a successful `_get_all`, `.error e`
for a raised `HTTPException`, which propagates before either slot
assignment).  `time.time()` values and `CACHE_TTL_SEC` are rationals.

`_get_all`'s HTTP layer is modelled by a response stream `resps : Nat →
PageResp Obj` giving, per `skip` offset, the status, parsed body and raw
text the endpoint returns.  The source's unbounded `while True` gets
explicit fuel: `fetchAllAux` with fuel `n` performs at most `n` page
requests, and claims about the loop are stated inside the fuel bound.
-/

/-- An `HTTPException` raised by `_get_all` (server.py:173-179): the
non-200 branch carries the upstream status and response text; the
`resp.json()` failure branch raises status 500 with an "Invalid json from
API" message (not carried here). -/
inductive FetchErr : Type
  | upstream (status : Nat) (body : String)
  | invalidJson
  deriving DecidableEq

/-- One cache slot, `{"ts": ..., "items": ...}`. -/
structure CacheSlot (Obj : Type) where
  ts : ℚ
  items : List Obj
  deriving DecidableEq

/-- The initial slot `{"ts": 0.0, "items": []}` (server.py:54-55): no
snapshot has been fetched yet. -/
def cacheInit {Obj : Type} : CacheSlot Obj := ⟨0, []⟩

/-- `_get_communities` / `_get_posts` (server.py:188-200): if
`now - ts > CACHE_TTL_SEC`, run the fetch and assign `items` then `ts`
(an exception leaves both assignments unexecuted and propagates);
otherwise return the stored items.  Returns the slot's new state and the
call's outcome. -/
def cacheGet {Obj : Type} (ttl now : ℚ) (fetch : Except FetchErr (List Obj))
    (c : CacheSlot Obj) : CacheSlot Obj × Except FetchErr (List Obj) :=
  if ttl < now - c.ts then
    match fetch with
    | .error e => (c, .error e)
    | .ok items => (⟨now, items⟩, .ok items)
  else (c, .ok c.items)

/-- The parsed JSON body of one page response. -/
inductive PageBody (Obj : Type) : Type
  /-- A JSON list of catalog objects. -/
  | arr (items : List Obj)
  /-- Valid JSON that is not a list (`isinstance(page, list)` fails). -/
  | notList
  /-- `resp.json()` raises. -/
  | malformed
  deriving DecidableEq

/-- One upstream page response: HTTP status, parsed body, raw text. -/
structure PageResp (Obj : Type) where
  status : Nat
  body : PageBody Obj
  text : String
  deriving DecidableEq

/-- Result of `_get_all`: accumulated items, a raised `HTTPException`, or
the modelled request budget running out while the upstream kept returning
full list pages (the source loop would still be running). -/
inductive FetchResult (Obj : Type) : Type
  | ok (items : List Obj)
  | err (e : FetchErr)
  | fuelOut
  deriving DecidableEq

/-- The loop body of `_get_all` (server.py:170-185): request the page at
`skip`; a non-200 status raises `HTTPException(status, text)`; an
unparseable body raises the invalid-JSON `HTTPException`; a non-list body
breaks with the items accumulated so far; a list page is appended, and the
loop ends when the page is shorter than `MP_API_PAGE_LIMIT`, else
continues at `skip + MP_API_PAGE_LIMIT`. -/
def fetchAllAux {Obj : Type} (limit : Nat) (resps : Nat → PageResp Obj) :
    Nat → Nat → List Obj → FetchResult Obj
  | 0, _, _ => .fuelOut
  | fuel + 1, skip, acc =>
    let r := resps skip
    if r.status ≠ 200 then .err (.upstream r.status r.text)
    else
      match r.body with
      | .malformed => .err .invalidJson
      | .notList => .ok acc
      | .arr page =>
        if page.length < limit then .ok (acc ++ page)
        else fetchAllAux limit resps fuel (skip + limit) (acc ++ page)

/-- `_get_all` (server.py:164-186), starting at `skip = 0` with an empty
accumulator. -/
def fetchAll {Obj : Type} (limit fuel : Nat) (resps : Nat → PageResp Obj) :
    FetchResult Obj :=
  fetchAllAux limit resps fuel 0 []

/-- A page response on which the source loop continues: HTTP 200, a JSON
list, at least `limit` items. -/
def pageFull {Obj : Type} (limit : Nat) (r : PageResp Obj) : Prop :=
  r.status = 200 ∧
    match r.body with
    | .arr p => limit ≤ p.length
    | _ => False

/-- The items of a page (empty for a non-list body), for stating the
accumulated result. -/
def pageItems {Obj : Type} (r : PageResp Obj) : List Obj :=
  match r.body with
  | .arr p => p
  | _ => []

/-- An HTTP success status in the sense of the spec's error taxonomy
("UpstreamError: non-2xx from catalog"): any 2xx code. -/
def isSuccessStatus (s : Nat) : Prop := 200 ≤ s ∧ s < 300

/-!
## Recommendation pipeline (server.py:67-88, 205-310)

`predict_communities` and `predict_posts` are the same code on their
respective caches; the pipeline after the catalog fetch is modelled once.
One-hot entries, popularities and cosine arithmetic are exact rationals.  A
cosine score `dot / (‖row‖·‖query‖)` is kept in the exact representation
`Score` with value `num / √den2`; the float comparisons of `np.lexsort`
are modelled by cross-multiplied squares, which agree with the real-valued
comparisons because every dot product of the 0/1 vectors is non-negative
and every stored `den2` is positive (proved below).
-/

/-- Python `str.lower` on the model repertoire (`е`, `ё`, ◌̈ are already
lowercase or uncased; `ch` covers characters on which `Char.toLower`
agrees with Python). -/
def lowerM (s : MStr) : MStr :=
  s.map fun c =>
    match c with
    | .ch c2 => .ch c2.toLower
    | c2 => c2

/-- The fixed synonym table of `_norm_token` (server.py:72-78). -/
def synonyms : List (MStr × MStr) :=
  [(mkS "cpp", mkS "c++"),
   (mkS "c plus plus", mkS "c++"),
   (mkS "c-плюс-плюс", mkS "c++"),
   (mkS "си", mkS "c"),
   (mkS "js", mkS "javascript")]

/-- `_norm_token` (server.py:67-79): NFC, strip, lowercase, fold `ё` to
`е`, then `synonyms.get(s, s)`.  (The non-string guard is irrelevant here:
all call sites pass strings.) -/
def normToken (t : MStr) : MStr :=
  let s := foldYo (lowerM (stripM (nfc t)))
  match synonyms.find? (fun p => p.1 == s) with
  | some p => p.2
  | none => s

/-- `_norm_list` (server.py:81-88): normalize each entry, drop empty
results, deduplicate keeping first-seen order (the `seen` set always holds
exactly the elements of `out`, so membership in `out` models it). -/
def normList (xs : List MStr) : List MStr :=
  xs.foldl
    (fun out x =>
      let n := normToken x
      if n ≠ [] ∧ n ∉ out then out ++ [n] else out)
    []

/-- A JSON value in the fields the code reads defensively. -/
inductive JVal : Type
  | num (q : ℚ)
  | str (s : List Char)
  | null
  deriving DecidableEq

/-- Python truthiness (`x or 0` keeps `x` iff `x` is truthy). -/
def truthy : JVal → Bool
  | .num q => decide (q ≠ 0)
  | .str s => decide (s ≠ [])
  | .null => false

/-- Digits to the number they spell. -/
def digitsToNat (ds : List Char) : Nat :=
  ds.foldl (fun a c => 10 * a + (c.toNat - Char.toNat '0')) 0

/-- Python `float(string)` restricted to the decimal forms
`[ws] [sign] digits [. digits] [ws]` (Python additionally accepts
exponents, `inf`/`nan` and underscores, which the modelled strings avoid);
`none` when the parse raises `ValueError`. -/
def parseFloat (s : List Char) : Option ℚ :=
  let t := ((s.dropWhile Char.isWhitespace).reverse.dropWhile
    Char.isWhitespace).reverse
  let su : ℚ × List Char :=
    match t with
    | '-' :: r => (-1, r)
    | '+' :: r => (1, r)
    | r => (1, r)
  let ip := su.2.takeWhile Char.isDigit
  let rest := su.2.dropWhile Char.isDigit
  match rest with
  | [] => if ip = [] then none else some (su.1 * digitsToNat ip)
  | '.' :: fp =>
      if fp.all Char.isDigit ∧ (ip ≠ [] ∨ fp ≠ []) then
        some (su.1 *
          ((digitsToNat ip : ℚ) + digitsToNat fp / (10 : ℚ) ^ fp.length))
      else none
  | _ => none

/-- Python `float(v)`: numbers pass through, numeric strings parse,
anything else raises (`ValueError`/`TypeError`), which the endpoint's broad
`except` turns into a 500 response. -/
def toFloat : JVal → Except String ℚ
  | .num q => .ok q
  | .str s =>
      match parseFloat s with
      | some q => .ok q
      | none => .error "ValueError"
  | .null => .error "TypeError"

/-- A catalog object as the code reads it (`obj.get("id", 0)`,
`obj.get("skills", [])`, `obj.get("member_count",
obj.get("like_count", 0))`): an `Option` field is `none` when the key is
absent.  `id` values are taken as integers (an `int(...)` of anything else
is outside the claims). -/
structure CatObj where
  id : Option Int := none
  skills : Option (List MStr) := none
  member_count : Option JVal := none
  like_count : Option JVal := none
  deriving DecidableEq

/-- `float(obj.get("member_count", obj.get("like_count", 0)) or 0)`
(server.py:226): key lookup with key-absent fallback, Python `or`
replacing a falsy value by `0`, then `float`. -/
def popOf (o : CatObj) : Except String ℚ :=
  let v := o.member_count.getD (o.like_count.getD (.num 0))
  toFloat (if truthy v then v else .num 0)

/-- The vocabulary dict `{token: index}` as its insertion-ordered entry
list. -/
abbrev Vocab := List (MStr × Nat)

/-- `vocab.get(tok)`: the (single) entry's index, if present. -/
def vocabGet (v : Vocab) (t : MStr) : Option Nat :=
  (v.find? (fun p => p.1 == t)).map Prod.snd

/-- `if tok not in vocab: vocab[tok] = len(vocab)` (server.py:210-211). -/
def vocabInsert (v : Vocab) (t : MStr) : Vocab :=
  if (vocabGet v t).isSome then v else v ++ [(t, v.length)]

/-- `_build_vocab` (server.py:205-212). -/
def buildVocab (objs : List CatObj) : Vocab :=
  objs.foldl (fun v o => (normList (o.skills.getD [])).foldl vocabInsert v) []

/-- The loop body of `_one_hot_matrix` (server.py:227-235): set the token's
dimension when it is in the vocabulary; the `"arduino"` hint additionally
forces the `"c++"` dimension when that token exists. -/
def applyTokRow (v : Vocab) (row : List ℚ) (tok : MStr) : List ℚ :=
  let row2 :=
    match vocabGet v tok with
    | some j => row.set j 1
    | none => row
  if tok = mkS "arduino" then
    match vocabGet v (mkS "c++") with
    | some j => row2.set j 1
    | none => row2
  else row2

/-- The one-hot row of one catalog object. -/
def itemRow (v : Vocab) (o : CatObj) : List ℚ :=
  (normList (o.skills.getD [])).foldl (applyTokRow v) (List.replicate v.length 0)

/-- `_one_hot_matrix` (server.py:214-236): `(M, ids, popularity)`, with
empty arrays when there are no objects or the vocabulary is empty; a
popularity conversion error propagates (the Python exception leaves the
loop). -/
def oneHotMatrix (objs : List CatObj) (v : Vocab) :
    Except String (List (List ℚ) × List Int × List ℚ) :=
  if objs = [] ∨ v.length = 0 then .ok ([], [], [])
  else do
    let rows ← objs.mapM fun o => do
      let p ← popOf o
      pure (itemRow v o, o.id.getD 0, p)
    pure (rows.map (fun r => r.1), rows.map (fun r => r.2.1),
      rows.map (fun r => r.2.2))

/-- The loop body of `_skills_to_vec` (server.py:240-248): like
`applyTokRow`, with the query-side hint set. -/
def applyTokVec (v : Vocab) (row : List ℚ) (tok : MStr) : List ℚ :=
  let row2 :=
    match vocabGet v tok with
    | some j => row.set j 1
    | none => row
  if tok = mkS "arduino" ∨ tok = mkS "олимпиадная информатика" ∨
      tok = mkS "codeforces" then
    match vocabGet v (mkS "c++") with
    | some j => row2.set j 1
    | none => row2
  else row2

/-- `_skills_to_vec` (server.py:238-249). -/
def skillsToVec (skills : List MStr) (v : Vocab) : List ℚ :=
  (normList skills).foldl (applyTokVec v) (List.replicate v.length 0)

/-- `sum(x*x)`, the squared euclidean norm `np.linalg.norm(v)**2`. -/
def sumSq (xs : List ℚ) : ℚ := (xs.map fun x => x * x).sum

/-- The dot product `row @ u` (rows and query have the vocabulary's
length). -/
def dotL (xs ys : List ℚ) : ℚ := ((xs.zip ys).map fun p => p.1 * p.2).sum

/-- A float produced by `_cosine_scores`, kept exactly: the value is
`num / √den2`, where `num` is the dot product and `den2` the squared
denominator (`‖row‖²·‖query‖²`, or the squared `1e-8` substitute). -/
structure Score where
  num : ℚ
  den2 : ℚ
  deriving DecidableEq

/-- `_cosine_scores` (server.py:251-260): empty matrix → empty output; a
zero query norm → all-zero scores (`den2 = 1` represents the plain float
`0.0`); otherwise each row scores `dot / (‖row‖·‖query‖)` with a zero
denominator replaced by `1e-8` — which then divides the necessarily-zero
dot product of an all-zero 0/1 row. -/
def cosineScores (u : List ℚ) (M : List (List ℚ)) : List Score :=
  if M = [] then []
  else
    let u2 := sumSq u
    if u2 = 0 then M.map fun _ => ⟨0, 1⟩
    else
      M.map fun row =>
        let r2 := sumSq row
        if r2 * u2 = 0 then ⟨dotL row u, (1 / 100000000) ^ 2⟩
        else ⟨dotL row u, r2 * u2⟩

/-- `a ≤ b` on score values `num/√den2` via cross-multiplied squares —
valid when the numerators are non-negative and the `den2` positive, the
invariants of `cosineScores` output (proved below). -/
def Score.leB (a b : Score) : Bool :=
  decide (a.num ^ 2 * b.den2 ≤ b.num ^ 2 * a.den2)

/-- Score value equality. -/
def Score.eqB (a b : Score) : Bool := a.leB b && b.leB a

/-- Strict score value order. -/
def Score.ltB (a b : Score) : Bool := a.leB b && !(b.leB a)

/-- The comparison key of `order = np.lexsort((-pop, -scores))`
(server.py:287): score value descending, then popularity descending, then
index ascending (`lexsort` is stable).  The index component makes the key
strictly total, so any correct sort produces `lexsort`'s unique output. -/
def rankRel (scores : List Score) (pops : List ℚ) (i j : Nat) : Prop :=
  Score.ltB (scores.getD j ⟨0, 1⟩) (scores.getD i ⟨0, 1⟩) = true ∨
    (Score.eqB (scores.getD i ⟨0, 1⟩) (scores.getD j ⟨0, 1⟩) = true ∧
      (pops.getD j 0 < pops.getD i 0 ∨
        (pops.getD i 0 = pops.getD j 0 ∧ i ≤ j)))

instance rankRel.decRel (scores : List Score) (pops : List ℚ) :
    DecidableRel (rankRel scores pops) := fun i j => by
  unfold rankRel
  infer_instance

/-- `np.lexsort((-pop, -scores))`, see `rankRel`. -/
def lexsortIdx (scores : List Score) (pops : List ℚ) : List Nat :=
  List.insertionSort (rankRel scores pops) (List.range scores.length)

/-- `RecoResponseItem` (server.py:269-271), the score in exact
representation. -/
structure RecoItem where
  id : Int
  score : Score
  deriving DecidableEq

/-- `max(1, int(req.limit or 50))` (server.py:288): pydantic defaults an
absent `limit` to 50 and maps explicit `null` to `None`; Python `or`
replaces `None` and `0` by 50. -/
def limitK (limit : Option Int) : Int :=
  max 1
    (match limit with
     | none => 50
     | some v => if v = 0 then 50 else v)

/-- `predict_communities` / `predict_posts` (server.py:276-310) after the
catalog items are in hand: build the vocabulary, one-hot matrix, query
vector and cosine scores; an empty score array returns `[]`; otherwise
lexsort and return the first `max(1, k)` entries as `{id, score}`. -/
def predictCommunities (objs : List CatObj) (skills : List MStr)
    (limit : Option Int) : Except String (List RecoItem) := do
  let v := buildVocab objs
  let (M, ids, pops) ← oneHotMatrix objs v
  let u := skillsToVec skills v
  let scores := cosineScores u M
  if scores = [] then pure []
  else
    let order := lexsortIdx scores pops
    let k := (limitK limit).toNat
    pure ((order.take k).map fun i =>
      ⟨ids.getD i 0, scores.getD i ⟨0, 1⟩⟩)

/-- The real value `num / √den2` of a score — the float the code's array
holds.  (Spec-side interpretation only; noncomputable because of the real
square root.  Witnesses evaluate scores through the representation.) -/
noncomputable def Score.val (s : Score) : ℝ :=
  (s.num : ℝ) / Real.sqrt (s.den2 : ℝ)

/-- The invariants under which the cross-multiplied comparisons agree with
the real-valued ones. -/
def scoreInv (s : Score) : Prop := 0 ≤ s.num ∧ 0 < s.den2

/-- The spec-side ranking key: primary value `A` descending, tie-break `B`
descending, remaining ties by index ascending (the stable order). -/
def keyRel {β γ : Type} [LinearOrder β] [LinearOrder γ] (A : Nat → β)
    (B : Nat → γ) (i j : Nat) : Prop :=
  A j < A i ∨ (A i = A j ∧ (B j < B i ∨ (B i = B j ∧ i ≤ j)))

/-! ## Theorems -/

theorem noYeDia_cons {c : MChar} {l : MStr}
    (h : c ≠ MChar.ye ∨ l.head? ≠ some MChar.dia) :
    noYeDia (c :: l) = noYeDia l := by
  cases l with
  | nil => cases c <;> rfl
  | cons d t => cases c <;> cases d <;> simp_all [noYeDia]

theorem noYeDia_of_cons {c : MChar} {l : MStr} (h : noYeDia (c :: l) = true) :
    noYeDia l = true := by
  cases l with
  | nil => rfl
  | cons d t => cases c <;> cases d <;> simp_all [noYeDia]

theorem noYoDia_of_cons {c : MChar} {l : MStr} (h : noYoDia (c :: l) = true) :
    noYoDia l = true := by
  cases l with
  | nil => rfl
  | cons d t => cases c <;> cases d <;> simp_all [noYoDia]

theorem head_composeM_ne_dia : ∀ {l : MStr}, l.head? ≠ some MChar.dia →
    (composeM l).head? ≠ some MChar.dia
  | [], _ => by simp [composeM]
  | .ye :: t, _ => by
    cases t with
    | nil => simp [composeM]
    | cons d t2 => cases d <;> simp [composeM]
  | .yo :: t, _ => by simp [composeM]
  | .dia :: t, h => by simp at h
  | .ch c :: t, _ => by simp [composeM]

theorem noYeDia_composeM : ∀ s : MStr, noYeDia (composeM s) = true := by
  intro s
  induction s using composeM.induct with
  | case1 => rfl
  | case2 rest ih =>
    show noYeDia (.yo :: composeM rest) = true
    rw [noYeDia_cons (Or.inl (by simp))]
    exact ih
  | case3 c rest h ih =>
    cases c with
    | ye =>
      cases rest with
      | nil => rfl
      | cons d t =>
        cases d with
        | dia => exact absurd rfl (fun hh => h t hh rfl)
        | ye =>
          show noYeDia (.ye :: composeM (.ye :: t)) = true
          rw [noYeDia_cons (Or.inr (head_composeM_ne_dia (by simp)))]
          exact ih
        | yo =>
          show noYeDia (.ye :: composeM (.yo :: t)) = true
          rw [noYeDia_cons (Or.inr (head_composeM_ne_dia (by simp)))]
          exact ih
        | ch c2 =>
          show noYeDia (.ye :: composeM (.ch c2 :: t)) = true
          rw [noYeDia_cons (Or.inr (head_composeM_ne_dia (by simp)))]
          exact ih
    | yo =>
      show noYeDia (.yo :: composeM rest) = true
      rw [noYeDia_cons (Or.inl (by simp))]
      exact ih
    | dia =>
      show noYeDia (.dia :: composeM rest) = true
      rw [noYeDia_cons (Or.inl (by simp))]
      exact ih
    | ch c2 =>
      show noYeDia (.ch c2 :: composeM rest) = true
      rw [noYeDia_cons (Or.inl (by simp))]
      exact ih

theorem composeM_eq_self : ∀ {s : MStr}, noYeDia s = true → composeM s = s := by
  intro s
  induction s using composeM.induct with
  | case1 => intro _; rfl
  | case2 rest ih => intro h; simp [noYeDia] at h
  | case3 c rest h ih =>
    intro hnd
    have hrest : noYeDia rest = true := noYeDia_of_cons hnd
    cases c with
    | ye =>
      cases rest with
      | nil => rfl
      | cons d t =>
        cases d with
        | dia => exact absurd rfl (fun hh => h t hh rfl)
        | ye => show _ :: composeM _ = _; rw [ih hrest]
        | yo => show _ :: composeM _ = _; rw [ih hrest]
        | ch c2 => show _ :: composeM _ = _; rw [ih hrest]
    | yo => show _ :: composeM _ = _; rw [ih hrest]
    | dia => show _ :: composeM _ = _; rw [ih hrest]
    | ch c2 => show _ :: composeM _ = _; rw [ih hrest]

theorem decomposeM_eq_self : ∀ {s : MStr}, noYo s = true → decomposeM s = s := by
  intro s h
  induction s with
  | nil => rfl
  | cons c rest ih =>
    have h2 : noYo rest = true := by
      simp only [noYo, List.all_cons, Bool.and_eq_true] at h
      exact h.2
    have hcy : c ≠ MChar.yo := by
      intro hcc
      subst hcc
      simp [noYo] at h
    have hc : decomposeC c = [c] := by
      cases c <;> simp_all [decomposeC]
    have hr : decomposeM rest = rest := ih h2
    simp only [decomposeM, List.map_cons, List.flatten_cons, hc] at hr ⊢
    simp [hr]

theorem nfc_eq_self {s : MStr} (h1 : noYo s = true) (h2 : noYeDia s = true) :
    nfc s = s := by
  unfold nfc
  rw [decomposeM_eq_self h1, composeM_eq_self h2]

theorem noYo_foldYo (s : MStr) : noYo (foldYo s) = true := by
  induction s with
  | nil => rfl
  | cons c rest ih => cases c <;> simp_all [foldYo, noYo]

theorem foldYo_eq_self : ∀ {s : MStr}, noYo s = true → foldYo s = s := by
  intro s h
  induction s with
  | nil => rfl
  | cons c rest ih =>
    simp only [noYo, List.all_cons, Bool.and_eq_true, decide_eq_true_eq] at h
    cases c <;> simp_all [foldYo, noYo]

theorem noYeDia_foldYo : ∀ {s : MStr}, noYoDia s = true → noYeDia s = true →
    noYeDia (foldYo s) = true := by
  intro s h1 h2
  induction s with
  | nil => rfl
  | cons c rest ih =>
    have ih2 := ih (noYoDia_of_cons h1) (noYeDia_of_cons h2)
    show noYeDia ((if c = .yo then .ye else c) :: foldYo rest) = true
    cases c with
    | ye =>
      show noYeDia (MChar.ye :: foldYo rest) = true
      cases rest with
      | nil => rfl
      | cons d t =>
        cases d with
        | dia => simp [noYeDia] at h2
        | ye => rw [noYeDia_cons (Or.inr (by simp [foldYo]))]; exact ih2
        | yo => rw [noYeDia_cons (Or.inr (by simp [foldYo]))]; exact ih2
        | ch c2 => rw [noYeDia_cons (Or.inr (by simp [foldYo]))]; exact ih2
    | yo =>
      show noYeDia (MChar.ye :: foldYo rest) = true
      cases rest with
      | nil => rfl
      | cons d t =>
        cases d with
        | dia => simp [noYoDia] at h1
        | ye => rw [noYeDia_cons (Or.inr (by simp [foldYo]))]; exact ih2
        | yo => rw [noYeDia_cons (Or.inr (by simp [foldYo]))]; exact ih2
        | ch c2 => rw [noYeDia_cons (Or.inr (by simp [foldYo]))]; exact ih2
    | dia =>
      show noYeDia (MChar.dia :: foldYo rest) = true
      rw [noYeDia_cons (Or.inl (by simp))]
      exact ih2
    | ch c2 =>
      show noYeDia (MChar.ch c2 :: foldYo rest) = true
      rw [noYeDia_cons (Or.inl (by simp))]
      exact ih2

theorem stripM_isInfix (s : MStr) : stripM s <:+: s :=
  (List.rdropWhile_prefix isWS _).isInfix.trans
    (List.dropWhile_suffix isWS).isInfix

theorem noYo_of_infix {s t : MStr} (hst : t <:+: s) (h : noYo s = true) :
    noYo t = true := by
  simp only [noYo, List.all_eq_true] at h ⊢
  exact fun c hc => h c (hst.subset hc)

theorem noYeDia_append_right : ∀ {a b : MStr}, noYeDia (a ++ b) = true →
    noYeDia b = true := by
  intro a
  induction a with
  | nil => intro b h; simpa using h
  | cons c a2 ih => intro b h; exact ih (noYeDia_of_cons h)

theorem noYeDia_append_left : ∀ {a b : MStr}, noYeDia (a ++ b) = true →
    noYeDia a = true := by
  intro a
  induction a with
  | nil => intro b _; rfl
  | cons c a2 ih =>
    intro b h
    cases c with
    | ye =>
      cases a2 with
      | nil => rfl
      | cons d t =>
        cases d with
        | dia => simp [noYeDia] at h
        | ye =>
          rw [noYeDia_cons (Or.inr (by simp))]
          exact ih (noYeDia_of_cons h)
        | yo =>
          rw [noYeDia_cons (Or.inr (by simp))]
          exact ih (noYeDia_of_cons h)
        | ch c2 =>
          rw [noYeDia_cons (Or.inr (by simp))]
          exact ih (noYeDia_of_cons h)
    | yo =>
      rw [noYeDia_cons (Or.inl (by simp))]
      exact ih (noYeDia_of_cons h)
    | dia =>
      rw [noYeDia_cons (Or.inl (by simp))]
      exact ih (noYeDia_of_cons h)
    | ch c2 =>
      rw [noYeDia_cons (Or.inl (by simp))]
      exact ih (noYeDia_of_cons h)

theorem noYeDia_of_infix {s t : MStr} (hst : t <:+: s) (h : noYeDia s = true) :
    noYeDia t = true := by
  obtain ⟨u, v, rfl⟩ := hst
  have h2 : noYeDia (t ++ v) = true := by
    apply noYeDia_append_right (a := u)
    rw [← List.append_assoc]
    exact h
  exact noYeDia_append_left h2

theorem stripM_idem (s : MStr) : stripM (stripM s) = stripM s := by
  unfold stripM
  have hdd : List.dropWhile isWS (List.rdropWhile isWS (s.dropWhile isWS)) =
      List.rdropWhile isWS (s.dropWhile isWS) := by
    cases hr : List.rdropWhile isWS (s.dropWhile isWS) with
    | nil => rfl
    | cons c w =>
      have hpre := List.rdropWhile_prefix isWS (s.dropWhile isWS)
      rw [hr] at hpre
      obtain ⟨u, hu⟩ := hpre
      have hts : List.dropWhile isWS (s.dropWhile isWS) = s.dropWhile isWS :=
        List.dropWhile_idempotent isWS s
      have htc : s.dropWhile isWS = c :: (w ++ u) := by
        rw [← hu]; simp
      have hc : isWS c = false := by
        rw [htc, List.dropWhile_cons] at hts
        by_contra hcc
        rw [if_pos (by simpa using hcc)] at hts
        have hlen : (List.dropWhile isWS (w ++ u)).length ≤ (w ++ u).length :=
          (List.dropWhile_suffix isWS).sublist.length_le
        rw [hts] at hlen
        simp at hlen
      simp [List.dropWhile_cons, hc]
  rw [hdd, List.rdropWhile_idempotent]

/-- C9, counterexample: `_normalize_text` is not idempotent.  On the string
`"ё" + U+0308` (a `ё` followed by a combining diaeresis), NFC keeps the pair
(the second diaeresis is blocked), the fold then rewrites `ё` to `е`, so the
first pass yields `е` + U+0308 — and the second pass NFC-composes that pair
into a fresh `ё`, which the fold rewrites to plain `е`.  In terms of the
Python source: `_normalize_text("ё̈") == "ё"` but
`_normalize_text("ё") == "е"`. -/
theorem normalizeText_not_idem :
    normalizeText (normalizeText [MChar.yo, MChar.dia]) ≠
      normalizeText [MChar.yo, MChar.dia] := by decide

/-- C9 (amended): `_normalize_text` is idempotent on every input whose NFC
form has no `ё` immediately followed by a combining diaeresis — the only
pattern on which the `ё`→`е` fold manufactures a freshly composable pair
for the next pass's Unicode composition.  (The diacritic fold, composition
and trimming change nothing on a second application otherwise.) -/
theorem normalizeText_idem (s : MStr) (h : noYoDia (nfc s) = true) :
    normalizeText (normalizeText s) = normalizeText s := by
  have h1 : noYeDia (nfc s) = true := noYeDia_composeM _
  have hv1 : noYo (foldYo (nfc s)) = true := noYo_foldYo _
  have hv2 : noYeDia (foldYo (nfc s)) = true := noYeDia_foldYo h h1
  have ht1 : noYo (normalizeText s) = true :=
    noYo_of_infix (stripM_isInfix _) hv1
  have ht2 : noYeDia (normalizeText s) = true :=
    noYeDia_of_infix (stripM_isInfix _) hv2
  show stripM (foldYo (nfc (normalizeText s))) = normalizeText s
  rw [nfc_eq_self ht1 ht2, foldYo_eq_self ht1]
  exact stripM_idem _

/-- C9, witness: the amended idempotence theorem applied to a concrete
string (with surrounding whitespace and a `ё`). -/
theorem normalizeText_idem_witness :
    noYoDia (nfc (mkS "  привет ё  ")) = true ∧
    normalizeText (normalizeText (mkS "  привет ё  ")) =
      normalizeText (mkS "  привет ё  ") :=
  ⟨by decide, normalizeText_idem (mkS "  привет ё  ") (by decide)⟩

/-- C8: if the description is `None` (`description or ""`) or normalizes to
the empty string, `predict_labels` returns `[]` — and the model is not
invoked: the result is the same for every pipeline function (and for every
argsort implementation, which is never reached). -/
theorem predictLabels_empty_short_circuit {α : Type} [LinearOrderedField α]
    (argsort : List α → List Nat) (exp : α → α) (dthr : α)
    (pipe pipe2 : MStr → List α)
    (labels : List String) (thr : Option (List α)) (desc : Option MStr)
    (h : normalizeText (desc.getD []) = []) :
    predictLabels argsort exp dthr ⟨pipe, labels, thr⟩ desc = [] ∧
    predictLabels argsort exp dthr ⟨pipe, labels, thr⟩ desc =
      predictLabels argsort exp dthr ⟨pipe2, labels, thr⟩ desc := by
  unfold predictLabels
  simp [h]

/-- C8, witness: `predict(None)` with a two-label artifact returns `[]`
regardless of the model. -/
theorem predictLabels_empty_short_circuit_witness :
    predictLabels argsortDesc (fun _ => (1 : ℚ)) (1/2)
        ⟨fun _ => [5, 5], ["a", "b"], none⟩ none = [] ∧
    predictLabels argsortDesc (fun _ => (1 : ℚ)) (1/2)
        ⟨fun _ => [5, 5], ["a", "b"], none⟩ none =
      predictLabels argsortDesc (fun _ => (1 : ℚ)) (1/2)
        ⟨fun _ => [-5, -5], ["a", "b"], none⟩ none :=
  predictLabels_empty_short_circuit argsortDesc (fun _ => (1 : ℚ)) (1/2)
    _ _ _ _ none (by decide)

/-- C6: a thresholds file whose length differs from the label count does not
fail the load; the thresholds are discarded (the loaded state records none)
and every subsequent prediction behaves exactly as with the uniform default
threshold vector. -/
theorem loadArtifacts_threshold_mismatch {α : Type} [LinearOrderedField α]
    (m : MStr → List α) (ls : List String) (t : List α)
    (hlen : t.length ≠ ls.length) :
    ∃ st : MLState α,
      loadArtifacts ⟨some m, some ls, some t⟩ = .ok st ∧
      st.thresholds = none ∧ st.labels = ls ∧ st.pipe = m ∧
      ∀ (argsort : List α → List Nat) (exp : α → α) (dthr : α)
          (desc : Option MStr),
        predictLabels argsort exp dthr st desc =
          predictLabels argsort exp dthr
            { st with thresholds := some (List.replicate ls.length dthr) }
            desc := by
  refine ⟨⟨m, ls, none⟩, ?_, rfl, rfl, rfl, ?_⟩
  · unfold loadArtifacts
    simp [hlen]
  · intro argsort exp dthr desc
    unfold predictLabels
    simp

/-! Machinery for C1: the strict lexicographic key "value descending, index
ascending" is total, transitive and antisymmetric, so a list is its
insertion sort exactly when it is a sorted permutation — which lets the
implementation's `argsort`-a-subvector-then-reindex compose be compared with
a direct stable sort of the selected index list. -/

theorem key_total {α : Type} [LinearOrder α] (f : Nat → α) :
    IsTotal Nat (fun i j => f j < f i ∨ (f i = f j ∧ i ≤ j)) := by
  constructor
  intro a b
  rcases lt_trichotomy (f a) (f b) with h | h | h
  · exact Or.inr (Or.inl h)
  · rcases Nat.le_total a b with hab | hab
    · exact Or.inl (Or.inr ⟨h, hab⟩)
    · exact Or.inr (Or.inr ⟨h.symm, hab⟩)
  · exact Or.inl (Or.inl h)

theorem key_trans {α : Type} [LinearOrder α] (f : Nat → α) :
    IsTrans Nat (fun i j => f j < f i ∨ (f i = f j ∧ i ≤ j)) := by
  constructor
  intro a b c hab hbc
  rcases hab with h1 | ⟨h1, h1b⟩ <;> rcases hbc with h2 | ⟨h2, h2b⟩
  · exact Or.inl (h2.trans h1)
  · exact Or.inl (h2 ▸ h1)
  · exact Or.inl (by rw [h1]; exact h2)
  · exact Or.inr ⟨h1.trans h2, h1b.trans h2b⟩

theorem key_antisymm {α : Type} [LinearOrder α] (f : Nat → α) :
    IsAntisymm Nat (fun i j => f j < f i ∨ (f i = f j ∧ i ≤ j)) := by
  constructor
  intro a b hab hba
  rcases hab with h1 | ⟨h1, h1b⟩ <;> rcases hba with h2 | ⟨h2, h2b⟩
  · exact absurd (h1.trans h2) (lt_irrefl _)
  · exact absurd h1 (by rw [h2]; exact lt_irrefl _)
  · exact absurd h2 (by rw [h1]; exact lt_irrefl _)
  · exact Nat.le_antisymm h1b h2b

theorem map_getD_range {β : Type} (l : List β) (d : β) :
    (List.range l.length).map (fun i => l.getD i d) = l := by
  induction l with
  | nil => rfl
  | cons c t ih =>
    rw [List.length_cons, List.range_succ_eq_map, List.map_cons, List.map_map]
    have h2 : ((fun i => (c :: t).getD i d) ∘ Nat.succ) = fun i => t.getD i d := by
      funext i
      simp
    rw [List.getD_cons_zero, h2, ih]

/-- Fancy-indexing an ascending index list through the argsort of the
corresponding subvector equals sorting the index list directly by the key
(value descending, index ascending): `idx[np.argsort(-probs[idx])]` is the
stable descending sort of `idx` by `probs`. -/
theorem argsortDesc_reindex {α : Type} [LinearOrderedField α] (f : Nat → α)
    (idx : List Nat) (hs : List.Sorted (· < ·) idx) :
    (argsortDesc (idx.map f)).map (fun p => idx.getD p 0) =
      List.insertionSort (fun i j => f j < f i ∨ (f i = f j ∧ i ≤ j)) idx := by
  haveI := key_total f
  haveI := key_trans f
  haveI := key_antisymm f
  haveI := key_total (fun p => (idx.map f).getD p 0)
  haveI := key_trans (fun p => (idx.map f).getD p 0)
  have hlen : (idx.map f).length = idx.length := List.length_map _ _
  -- both sides are permutations of idx
  have p1 : (argsortDesc (idx.map f)).Perm (List.range idx.length) := by
    rw [← hlen]
    exact List.perm_insertionSort _ _
  have p3 : ((argsortDesc (idx.map f)).map (fun p => idx.getD p 0)).Perm idx := by
    have p2 := p1.map (fun p => idx.getD p 0)
    rwa [map_getD_range idx 0] at p2
  -- membership bound for transporting the position key to the value key
  have hmem : ∀ p ∈ argsortDesc (idx.map f), p < idx.length := by
    intro p hp
    exact List.mem_range.mp (p1.subset hp)
  have hval : ∀ p, p < idx.length → (idx.map f).getD p 0 = f (idx.getD p 0) := by
    intro p hp
    rw [List.getD_eq_getElem _ _ (by rwa [hlen]), List.getD_eq_getElem _ _ hp,
      List.getElem_map]
  have hmono : ∀ p q, p < idx.length → q < idx.length → p ≤ q →
      idx.getD p 0 ≤ idx.getD q 0 := by
    intro p q hp hq hpq
    rw [List.getD_eq_getElem _ _ hp, List.getD_eq_getElem _ _ hq]
    rcases Nat.lt_or_ge p q with h | h
    · exact le_of_lt (hs.get_strictMono (show (⟨p, hp⟩ : Fin _) < ⟨q, hq⟩ from h))
    · have : p = q := Nat.le_antisymm hpq h
      subst this
      exact le_refl _
  -- the left side is sorted for the value key
  have hsortPos : List.Sorted
      (fun p q => (idx.map f).getD q 0 < (idx.map f).getD p 0 ∨
        ((idx.map f).getD p 0 = (idx.map f).getD q 0 ∧ p ≤ q))
      (argsortDesc (idx.map f)) := List.sorted_insertionSort _ _
  have hsortL : List.Sorted (fun i j => f j < f i ∨ (f i = f j ∧ i ≤ j))
      ((argsortDesc (idx.map f)).map (fun p => idx.getD p 0)) := by
    rw [List.Sorted, List.pairwise_map]
    refine hsortPos.imp_of_mem ?_
    intro p q hp hq hr
    have hp2 := hmem p hp
    have hq2 := hmem q hq
    rw [hval p hp2, hval q hq2] at hr
    rcases hr with h | ⟨h, hpq⟩
    · exact Or.inl h
    · exact Or.inr ⟨h, hmono p q hp2 hq2 hpq⟩
  -- the right side is sorted for the value key, and both are perms of idx
  exact List.eq_of_perm_of_sorted (p3.trans (List.perm_insertionSort _ idx).symm)
    hsortL (List.sorted_insertionSort _ idx)

/-- C6, witness: labels of length 3 with a thresholds vector of length 2. -/
theorem loadArtifacts_threshold_mismatch_witness :
    ∃ st : MLState ℚ,
      loadArtifacts ⟨some (fun _ => [1, 1, 1]), some ["a", "b", "c"],
          some [1/2, 1/2]⟩ = .ok st ∧
      st.thresholds = none ∧ st.labels = ["a", "b", "c"] ∧
      st.pipe = (fun _ => [1, 1, 1]) ∧
      ∀ (argsort : List ℚ → List Nat) (exp : ℚ → ℚ) (dthr : ℚ)
          (desc : Option MStr),
        predictLabels argsort exp dthr st desc =
          predictLabels argsort exp dthr
            { st with thresholds := some (List.replicate 3 dthr) } desc :=
  loadArtifacts_threshold_mismatch (fun _ => [1, 1, 1]) ["a", "b", "c"]
    [1/2, 1/2] (by decide)

/-- For the *stable* conforming argsort implementation — the behaviour that
`kind="stable"` would guarantee, i.e. the one the spec's tie sentence
describes — `predict_labels` returns exactly the labels whose sigmoid
probability is ≥ their threshold (inclusive `np.where(probs >=
thresholds)`), sorted by probability descending with ties in original
label-list order.  Supporting lemma for the tie-order finding: it shows
the spec sentence is exactly what the one-keyword fix (`kind="stable"`)
yields; the source's
default-kind call guarantees only `ArgsortSpec`, under which the tie order
is unspecified (see `predictLabels_tie_order_unspecified`). -/
theorem predictLabels_stable_argsort {α : Type} [LinearOrderedField α]
    (exp : α → α) (dthr : α) (st : MLState α) (desc : Option MStr)
    (hpipe : (st.pipe (normalizeText (desc.getD []))).length = st.labels.length)
    (hthr : st.thresholds = none ∨
      ∃ t, st.thresholds = some t ∧ t.length = st.labels.length)
    (hne : normalizeText (desc.getD []) ≠ []) :
    predictLabels argsortDesc exp dthr st desc =
      (List.insertionSort
        (fun i j =>
          ((st.pipe (normalizeText (desc.getD []))).map (sigmoid exp)).getD j 0 <
            ((st.pipe (normalizeText (desc.getD []))).map (sigmoid exp)).getD i 0 ∨
          (((st.pipe (normalizeText (desc.getD []))).map (sigmoid exp)).getD i 0 =
              ((st.pipe (normalizeText (desc.getD []))).map (sigmoid exp)).getD j 0 ∧
            i ≤ j))
        ((List.range st.labels.length).filter
          (fun i =>
            (st.thresholds.getD (List.replicate st.labels.length dthr)).getD i dthr ≤
              ((st.pipe (normalizeText (desc.getD []))).map (sigmoid exp)).getD i 0))).map
        (fun i => st.labels.getD i "") := by
  have hsortedIdx : List.Sorted (· < ·)
      ((List.range st.labels.length).filter
        (fun i =>
          (st.thresholds.getD (List.replicate st.labels.length dthr)).getD i dthr ≤
            ((st.pipe (normalizeText (desc.getD []))).map (sigmoid exp)).getD i 0)) :=
    List.Sorted.filter _ (List.pairwise_lt_range _)
  simp only [predictLabels]
  rw [if_neg hne]
  by_cases hidx :
      (List.range st.labels.length).filter
        (fun i =>
          (st.thresholds.getD (List.replicate st.labels.length dthr)).getD i dthr ≤
            ((st.pipe (normalizeText (desc.getD []))).map (sigmoid exp)).getD i 0) = []
  · rw [if_pos hidx, hidx]
    rfl
  · rw [if_neg hidx]
    rw [argsortDesc_reindex _ _ hsortedIdx]

theorem keyRev_total {α : Type} [LinearOrder α] (f : Nat → α) :
    IsTotal Nat (fun i j => f j < f i ∨ (f i = f j ∧ j ≤ i)) := by
  constructor
  intro a b
  rcases lt_trichotomy (f a) (f b) with h | h | h
  · exact Or.inr (Or.inl h)
  · rcases Nat.le_total a b with hab | hab
    · exact Or.inr (Or.inr ⟨h.symm, hab⟩)
    · exact Or.inl (Or.inr ⟨h, hab⟩)
  · exact Or.inl (Or.inl h)

theorem keyRev_trans {α : Type} [LinearOrder α] (f : Nat → α) :
    IsTrans Nat (fun i j => f j < f i ∨ (f i = f j ∧ j ≤ i)) := by
  constructor
  intro a b c hab hbc
  rcases hab with h1 | ⟨h1, h1b⟩ <;> rcases hbc with h2 | ⟨h2, h2b⟩
  · exact Or.inl (h2.trans h1)
  · exact Or.inl (h2 ▸ h1)
  · exact Or.inl (by rw [h1]; exact h2)
  · exact Or.inr ⟨h1.trans h2, h2b.trans h1b⟩

/-- The stable implementation satisfies numpy's argsort contract. -/
theorem argsortSpec_argsortDesc {α : Type} [LinearOrderedField α] :
    ArgsortSpec (argsortDesc : List α → List Nat) := by
  intro v
  haveI := key_total fun p => v.getD p 0
  haveI := key_trans fun p => v.getD p 0
  refine ⟨?_, ?_⟩
  · have h := List.perm_insertionSort
      (fun i j => v.getD j 0 < v.getD i 0 ∨ (v.getD i 0 = v.getD j 0 ∧ i ≤ j))
      (List.range v.length)
    exact h
  · have h := List.sorted_insertionSort
      (fun i j => v.getD j 0 < v.getD i 0 ∨ (v.getD i 0 = v.getD j 0 ∧ i ≤ j))
      (List.range v.length)
    refine h.imp ?_
    intro p q hpq
    rcases hpq with h2 | ⟨h2, _⟩
    · exact le_of_lt h2
    · exact le_of_eq h2.symm

/-- The tie-reversing implementation also satisfies the contract. -/
theorem argsortSpec_argsortDescRev {α : Type} [LinearOrderedField α] :
    ArgsortSpec (argsortDescRev : List α → List Nat) := by
  intro v
  haveI := keyRev_total fun p => v.getD p 0
  haveI := keyRev_trans fun p => v.getD p 0
  refine ⟨?_, ?_⟩
  · have h := List.perm_insertionSort
      (fun i j => v.getD j 0 < v.getD i 0 ∨ (v.getD i 0 = v.getD j 0 ∧ j ≤ i))
      (List.range v.length)
    exact h
  · have h := List.sorted_insertionSort
      (fun i j => v.getD j 0 < v.getD i 0 ∨ (v.getD i 0 = v.getD j 0 ∧ j ≤ i))
      (List.range v.length)
    refine h.imp ?_
    intro p q hpq
    rcases hpq with h2 | ⟨h2, _⟩
    · exact le_of_lt h2
    · exact le_of_eq h2.symm

/-- C1: the code does not guarantee the claim's tie clause.  The source
sorts the selected indices with `np.argsort(-probs[idx])` at server.py:145
using the default `kind='quicksort'`, which numpy documents as not stable:
the call's contract (`ArgsortSpec`) fixes only the selected set and the
descending order, not the relative order of equal probabilities.  Here two
implementations that both satisfy that contract return the two
equal-probability labels of the same request in opposite orders — so the
claimed "ties appear in the original label-list order" is not a property
of the program, while the spec's stable reading (matching the companion
ranker's deliberately stable `np.lexsort` and `kind="stable"`, see
`predictLabels_stable_argsort`) marks the default-kind call as the slip. -/
theorem predictLabels_tie_order_unspecified :
    ArgsortSpec (argsortDesc : List ℚ → List Nat) ∧
    ArgsortSpec (argsortDescRev : List ℚ → List Nat) ∧
    predictLabels argsortDesc (fun _ => (1 : ℚ)) 0
      ⟨fun _ => [0, 0], ["a", "b"], none⟩ (some [MChar.ch 'x']) =
        ["a", "b"] ∧
    predictLabels argsortDescRev (fun _ => (1 : ℚ)) 0
      ⟨fun _ => [0, 0], ["a", "b"], none⟩ (some [MChar.ch 'x']) =
        ["b", "a"] := by
  refine ⟨argsortSpec_argsortDesc, argsortSpec_argsortDescRev, ?_, ?_⟩
  · norm_num [predictLabels, argsortDesc, sigmoid, List.filter,
      List.insertionSort, List.orderedInsert, normalizeText, nfc,
      decomposeM, decomposeC, composeM, foldYo, stripM, isWS,
      List.rdropWhile]
    all_goals decide
  · norm_num [predictLabels, argsortDescRev, sigmoid, List.filter,
      List.insertionSort, List.orderedInsert, normalizeText, nfc,
      decomposeM, decomposeC, composeM, foldYo, stripM, isWS,
      List.rdropWhile]
    all_goals decide

/-- C3: for a cache slot (each of the two collections runs this same code
on its own slot), (i) when `now - ts ≤ ttl` the call returns the stored
snapshot unchanged, for every possible fetch outcome — no fetch is
performed; (ii) when `now - ts > ttl` (strictly) the fetch's items replace
the snapshot and `ts` becomes `now` — the no-snapshot initial slot has
`ts = 0`, so any `now > ttl` triggers the first fetch; (iii) a second call
within the TTL window returns the first call's snapshot with no further
fetch; (iv) a call after expiry installs the new fetch's items and
timestamp. -/
theorem cacheGet_ttl {Obj : Type} (ttl now now2 : ℚ) (c : CacheSlot Obj)
    (fetch fetch2 : Except FetchErr (List Obj)) (items its2 : List Obj) :
    (¬ ttl < now - c.ts → cacheGet ttl now fetch c = (c, .ok c.items)) ∧
    (ttl < now - c.ts →
      cacheGet ttl now (.ok items) c = (⟨now, items⟩, .ok items)) ∧
    (ttl < now → cacheGet ttl now (.ok items) (cacheInit : CacheSlot Obj) =
      (⟨now, items⟩, .ok items)) ∧
    (ttl < now - c.ts → ¬ ttl < now2 - now →
      cacheGet ttl now2 fetch2 (cacheGet ttl now (.ok items) c).1 =
        ((cacheGet ttl now (.ok items) c).1, .ok items)) ∧
    (ttl < now - c.ts → ttl < now2 - now →
      cacheGet ttl now2 (.ok its2) (cacheGet ttl now (.ok items) c).1 =
        (⟨now2, its2⟩, .ok its2)) := by
  refine ⟨?_, ?_, ?_, ?_, ?_⟩
  · intro h
    simp [cacheGet, h]
  · intro h
    simp [cacheGet, h]
  · intro h
    simp [cacheGet, cacheInit, h]
  · intro h1 h2
    simp [cacheGet, h1, h2]
  · intro h1 h2
    simp [cacheGet, h1, h2]

/-- C3, witness: `ttl = 60`; a first call at `now = 100` on the fresh slot
fetches and stores, a second at `now2 = 150` (within TTL) returns the same
snapshot for any fetch outcome, and one at `250` would refresh. -/
theorem cacheGet_ttl_witness :
    (cacheGet 60 150 (.error (.upstream 500 "boom"))
        (cacheGet 60 100 (.ok [(1 : ℚ)]) cacheInit).1 =
      ((cacheGet 60 100 (.ok [(1 : ℚ)]) cacheInit).1, .ok [(1 : ℚ)])) ∧
    (cacheGet 60 250 (.ok [(2 : ℚ)])
        (cacheGet 60 100 (.ok [(1 : ℚ)]) cacheInit).1 =
      (⟨250, [(2 : ℚ)]⟩, .ok [(2 : ℚ)])) :=
  ⟨(cacheGet_ttl 60 100 150 cacheInit (.ok [(1 : ℚ)])
      (.error (.upstream 500 "boom")) [(1 : ℚ)] [(2 : ℚ)]).2.2.2.1
        (by norm_num [cacheInit]) (by norm_num),
   (cacheGet_ttl 60 100 250 cacheInit (.ok [(1 : ℚ)])
      (.error (.upstream 500 "boom")) [(1 : ℚ)] [(2 : ℚ)]).2.2.2.2
        (by norm_num [cacheInit]) (by norm_num)⟩

/-- C4: when the paginated fetch raises during a refresh, the slot is left
entirely unchanged — previous items and previous timestamp both — because
the exception propagates before either assignment; replacement happens only
on a successful fetch.  (The first conjunct holds in the fresh case too,
where the fetch is not even consulted.) -/
theorem cacheGet_error_preserves {Obj : Type} (ttl now : ℚ) (e : FetchErr)
    (c : CacheSlot Obj) :
    (cacheGet ttl now (.error e) c).1 = c ∧
    (ttl < now - c.ts → cacheGet ttl now (.error e) c = (c, .error e)) := by
  constructor
  · unfold cacheGet
    split
    · rfl
    · rfl
  · intro h
    simp [cacheGet, h]

/-- C4, witness: a stale slot holding a previous snapshot survives a failed
refresh with both fields intact, and the error propagates. -/
theorem cacheGet_error_preserves_witness :
    cacheGet 60 500 (.error (.upstream 502 "bad gateway"))
        (⟨100, [(7 : ℚ)]⟩ : CacheSlot ℚ) =
      ((⟨100, [(7 : ℚ)]⟩ : CacheSlot ℚ), .error (.upstream 502 "bad gateway")) :=
  (cacheGet_error_preserves 60 500 (.upstream 502 "bad gateway")
    ⟨100, [(7 : ℚ)]⟩).2 (by norm_num)

theorem forall_lt_succ_head {P : Nat → Prop} {k : Nat} :
    (∀ j < k + 1, P j) ↔ P 0 ∧ ∀ j < k, P (j + 1) := by
  constructor
  · intro h
    exact ⟨h 0 (Nat.succ_pos k), fun j hj => h (j + 1) (by omega)⟩
  · rintro ⟨h0, h⟩ j hj
    cases j with
    | zero => exact h0
    | succ j2 => exact h j2 (by omega)

/-- `_get_all` raises `HTTPException(status, body)` exactly when the pages
requested so far were full 200 list pages up to one whose status is not
200, whose status and text the exception carries. -/
theorem fetchAllAux_err_iff {Obj : Type} (limit : Nat)
    (resps : Nat → PageResp Obj) :
    ∀ (fuel skip : Nat) (acc : List Obj) (s : Nat) (b : String),
      fetchAllAux limit resps fuel skip acc = .err (.upstream s b) ↔
        ∃ k, k < fuel ∧ (∀ j < k, pageFull limit (resps (skip + j * limit))) ∧
          (resps (skip + k * limit)).status ≠ 200 ∧
          s = (resps (skip + k * limit)).status ∧
          b = (resps (skip + k * limit)).text := by
  intro fuel
  induction fuel with
  | zero =>
    intro skip acc s b
    simp [fetchAllAux]
  | succ fuel ih =>
    intro skip acc s b
    by_cases hst : (resps skip).status = 200
    · cases hbody : (resps skip).body with
      | arr p =>
        by_cases hlt : p.length < limit
        · -- short page: normal stop, never an upstream error
          simp only [fetchAllAux, hbody, hst, hlt]
          simp only [ne_eq, not_true_eq_false, if_false, if_true]
          constructor
          · intro h
            exact absurd h (by simp)
          · rintro ⟨k, hk, hfull, hne, _, _⟩
            cases k with
            | zero => simp at hne; exact absurd hst hne
            | succ k2 =>
              have h0 := hfull 0 (Nat.succ_pos _)
              simp [pageFull, hbody] at h0
              omega
        · -- full page: recurse, shifting the page index by one
          have hstep : fetchAllAux limit resps (fuel + 1) skip acc =
              fetchAllAux limit resps fuel (skip + limit) (acc ++ p) := by
            simp [fetchAllAux, hbody, hst, hlt]
          rw [hstep, ih]
          constructor
          · rintro ⟨k, hk, hfull, hne, hs, hb⟩
            have harith : skip + limit + k * limit = skip + (k + 1) * limit := by
              ring
            refine ⟨k + 1, by omega, ?_, ?_, ?_, ?_⟩
            · refine forall_lt_succ_head.mpr ⟨?_, ?_⟩
              · simp only [Nat.zero_mul, Nat.add_zero]
                exact ⟨hst, by simp [hbody]; omega⟩
              · intro j hj
                have h2 := hfull j hj
                have : skip + limit + j * limit = skip + (j + 1) * limit := by
                  ring
                rwa [this] at h2
            · rwa [harith] at hne
            · rwa [harith] at hs
            · rwa [harith] at hb
          · rintro ⟨k, hk, hfull, hne, hs, hb⟩
            cases k with
            | zero =>
              simp only [Nat.zero_mul, Nat.add_zero] at hne
              exact absurd hst hne
            | succ k2 =>
              have harith : skip + (k2 + 1) * limit = skip + limit + k2 * limit := by
                ring
              obtain ⟨-, htail⟩ := forall_lt_succ_head.mp hfull
              refine ⟨k2, by omega, ?_, ?_, ?_, ?_⟩
              · intro j hj
                have h2 := htail j hj
                have : skip + (j + 1) * limit = skip + limit + j * limit := by
                  ring
                rwa [this] at h2
              · rwa [harith] at hne
              · rwa [harith] at hs
              · rwa [harith] at hb
      | notList =>
        simp only [fetchAllAux, hbody, hst]
        simp only [ne_eq, not_true_eq_false, if_false]
        constructor
        · intro h
          exact absurd h (by simp)
        · rintro ⟨k, hk, hfull, hne, _, _⟩
          cases k with
          | zero => simp at hne; exact absurd hst hne
          | succ k2 =>
            have h0 := hfull 0 (Nat.succ_pos _)
            simp [pageFull, hbody] at h0
      | malformed =>
        simp only [fetchAllAux, hbody, hst]
        simp only [ne_eq, not_true_eq_false, if_false]
        constructor
        · intro h
          exact absurd h (by simp)
        · rintro ⟨k, hk, hfull, hne, _, _⟩
          cases k with
          | zero => simp at hne; exact absurd hst hne
          | succ k2 =>
            have h0 := hfull 0 (Nat.succ_pos _)
            simp [pageFull, hbody] at h0
    · -- non-200 status: the exception carries this page's status and text
      have hstep : fetchAllAux limit resps (fuel + 1) skip acc =
          .err (.upstream (resps skip).status (resps skip).text) := by
        simp [fetchAllAux, hst]
      rw [hstep]
      constructor
      · intro h
        simp only [FetchResult.err.injEq, FetchErr.upstream.injEq] at h
        exact ⟨0, Nat.succ_pos _, by omega,
          by simpa using hst, by simp [h.1], by simp [h.2]⟩
      · rintro ⟨k, hk, hfull, hne, hs, hb⟩
        cases k with
        | zero =>
          simp only [Nat.zero_mul, Nat.add_zero] at hs hb
          rw [hs, hb]
        | succ k2 =>
          have h0 := hfull 0 (Nat.succ_pos _)
          rw [pageFull] at h0
          simp at h0
          exact absurd h0.1 hst

theorem flattenPages_succ {Obj : Type} (resps : Nat → PageResp Obj)
    (skip limit k : Nat) :
    ((List.range (k + 1)).map
        (fun j => pageItems (resps (skip + j * limit)))).flatten =
      pageItems (resps skip) ++
        ((List.range k).map
          (fun j => pageItems (resps (skip + limit + j * limit)))).flatten := by
  rw [List.range_succ_eq_map, List.map_cons, List.flatten_cons, List.map_map]
  have h2 : ((fun j => pageItems (resps (skip + j * limit))) ∘ Nat.succ) =
      fun j => pageItems (resps (skip + limit + j * limit)) := by
    funext j
    show pageItems (resps (skip + (j + 1) * limit)) = _
    rw [show skip + (j + 1) * limit = skip + limit + j * limit from by ring]
  rw [h2, show skip + 0 * limit = skip from by ring]

/-- `_get_all` returns normally exactly when the pages requested were full
200 list pages up to a 200 page that is short or not a list, and the result
accumulates the returned items in order. -/
theorem fetchAllAux_ok_iff {Obj : Type} (limit : Nat)
    (resps : Nat → PageResp Obj) :
    ∀ (fuel skip : Nat) (acc out : List Obj),
      fetchAllAux limit resps fuel skip acc = .ok out ↔
        ∃ k, k < fuel ∧ (∀ j < k, pageFull limit (resps (skip + j * limit))) ∧
          (resps (skip + k * limit)).status = 200 ∧
          ((∃ p, (resps (skip + k * limit)).body = .arr p ∧ p.length < limit ∧
              out = acc ++ ((List.range k).map
                (fun j => pageItems (resps (skip + j * limit)))).flatten ++ p) ∨
            ((resps (skip + k * limit)).body = PageBody.notList ∧
              out = acc ++ ((List.range k).map
                (fun j => pageItems (resps (skip + j * limit)))).flatten)) := by
  intro fuel
  induction fuel with
  | zero =>
    intro skip acc out
    simp [fetchAllAux]
  | succ fuel ih =>
    intro skip acc out
    by_cases hst : (resps skip).status = 200
    · cases hbody : (resps skip).body with
      | arr p =>
        by_cases hlt : p.length < limit
        · have hstep : fetchAllAux limit resps (fuel + 1) skip acc =
              .ok (acc ++ p) := by
            simp [fetchAllAux, hbody, hst, hlt]
          rw [hstep]
          constructor
          · intro h
            rw [FetchResult.ok.injEq] at h
            refine ⟨0, Nat.succ_pos _, by omega, by simpa using hst,
              Or.inl ⟨p, by simpa using hbody, hlt, ?_⟩⟩
            rw [← h]
            simp
          · rintro ⟨k, hk, hfull, hst2, hout⟩
            cases k with
            | zero =>
              rcases hout with ⟨p2, hb2, hl2, ho⟩ | ⟨hb2, ho⟩
              · simp only [Nat.zero_mul, Nat.add_zero] at hb2
                rw [hbody, PageBody.arr.injEq] at hb2
                subst hb2
                rw [ho]
                simp
              · simp only [Nat.zero_mul, Nat.add_zero] at hb2
                rw [hbody] at hb2
                exact absurd hb2 (by simp)
            | succ k2 =>
              have h0 := hfull 0 (Nat.succ_pos _)
              simp [pageFull, hbody] at h0
              omega
        · have hstep : fetchAllAux limit resps (fuel + 1) skip acc =
              fetchAllAux limit resps fuel (skip + limit) (acc ++ p) := by
            simp [fetchAllAux, hbody, hst, hlt]
          rw [hstep, ih]
          have hpi : pageItems (resps skip) = p := by
            simp [pageItems, hbody]
          constructor
          · rintro ⟨k, hk, hfull, hst2, hout⟩
            have harith : skip + limit + k * limit = skip + (k + 1) * limit := by
              ring
            refine ⟨k + 1, by omega, ?_, by rwa [harith] at hst2, ?_⟩
            · refine forall_lt_succ_head.mpr ⟨?_, ?_⟩
              · simp only [Nat.zero_mul, Nat.add_zero]
                exact ⟨hst, by simp [hbody]; omega⟩
              · intro j hj
                have h2 := hfull j hj
                rwa [show skip + limit + j * limit = skip + (j + 1) * limit
                  from by ring] at h2
            · have hflat := flattenPages_succ resps skip limit k
              rcases hout with ⟨p2, hb2, hl2, ho⟩ | ⟨hb2, ho⟩
              · refine Or.inl ⟨p2, by rwa [harith] at hb2, hl2, ?_⟩
                rw [ho, hflat, hpi]
                simp [List.append_assoc]
              · refine Or.inr ⟨by rwa [harith] at hb2, ?_⟩
                rw [ho, hflat, hpi]
                simp [List.append_assoc]
          · rintro ⟨k, hk, hfull, hst2, hout⟩
            cases k with
            | zero =>
              rcases hout with ⟨p2, hb2, hl2, ho⟩ | ⟨hb2, ho⟩
              · simp only [Nat.zero_mul, Nat.add_zero] at hb2
                rw [hbody, PageBody.arr.injEq] at hb2
                subst hb2
                omega
              · simp only [Nat.zero_mul, Nat.add_zero] at hb2
                rw [hbody] at hb2
                exact absurd hb2 (by simp)
            | succ k2 =>
              obtain ⟨-, htail⟩ := forall_lt_succ_head.mp hfull
              have harith : skip + (k2 + 1) * limit = skip + limit + k2 * limit := by
                ring
              refine ⟨k2, by omega, ?_, by rwa [harith] at hst2, ?_⟩
              · intro j hj
                have h2 := htail j hj
                rwa [show skip + (j + 1) * limit = skip + limit + j * limit
                  from by ring] at h2
              · have hflat := flattenPages_succ resps skip limit k2
                rcases hout with ⟨p2, hb2, hl2, ho⟩ | ⟨hb2, ho⟩
                · refine Or.inl ⟨p2, by rwa [harith] at hb2, hl2, ?_⟩
                  rw [ho, hflat, hpi]
                  simp [List.append_assoc]
                · refine Or.inr ⟨by rwa [harith] at hb2, ?_⟩
                  rw [ho, hflat, hpi]
                  simp [List.append_assoc]
      | notList =>
        have hstep : fetchAllAux limit resps (fuel + 1) skip acc = .ok acc := by
          simp [fetchAllAux, hbody, hst]
        rw [hstep]
        constructor
        · intro h
          rw [FetchResult.ok.injEq] at h
          refine ⟨0, Nat.succ_pos _, by omega, by simpa using hst,
            Or.inr ⟨by simpa using hbody, ?_⟩⟩
          rw [← h]
          simp
        · rintro ⟨k, hk, hfull, hst2, hout⟩
          cases k with
          | zero =>
            rcases hout with ⟨p2, hb2, hl2, ho⟩ | ⟨hb2, ho⟩
            · simp only [Nat.zero_mul, Nat.add_zero] at hb2
              rw [hbody] at hb2
              exact absurd hb2 (by simp)
            · rw [ho]
              simp
          | succ k2 =>
            have h0 := hfull 0 (Nat.succ_pos _)
            simp [pageFull, hbody] at h0
      | malformed =>
        have hstep : fetchAllAux limit resps (fuel + 1) skip acc =
            .err .invalidJson := by
          simp [fetchAllAux, hbody, hst]
        rw [hstep]
        constructor
        · intro h
          exact absurd h (by simp)
        · rintro ⟨k, hk, hfull, hst2, hout⟩
          cases k with
          | zero =>
            rcases hout with ⟨p2, hb2, hl2, ho⟩ | ⟨hb2, ho⟩ <;>
              · simp only [Nat.zero_mul, Nat.add_zero] at hb2
                rw [hbody] at hb2
                exact absurd hb2 (by simp)
          | succ k2 =>
            have h0 := hfull 0 (Nat.succ_pos _)
            simp [pageFull, hbody] at h0
    · have hstep : fetchAllAux limit resps (fuel + 1) skip acc =
          .err (.upstream (resps skip).status (resps skip).text) := by
        simp [fetchAllAux, hst]
      rw [hstep]
      constructor
      · intro h
        exact absurd h (by simp)
      · rintro ⟨k, hk, hfull, hst2, hout⟩
        cases k with
        | zero =>
          simp only [Nat.zero_mul, Nat.add_zero] at hst2
          exact absurd hst2 hst
        | succ k2 =>
          have h0 := hfull 0 (Nat.succ_pos _)
          rw [pageFull] at h0
          simp at h0
          exact absurd h0.1 hst

/-- C5, counterexample: a first page answered with HTTP 201 — a success
status in the spec's sense (§7: UpstreamError is "non-2xx from catalog") —
still fails the whole fetch with `UpstreamError{201, body}`, because the
code tests `resp.status != 200`.  So "fails with UpstreamError iff some
page request returns a non-success status" is false as stated: here every
page has a 2xx status, yet the fetch fails. -/
theorem fetchAll_fails_on_2xx :
    fetchAll 100 5
        (fun _ => (⟨201, PageBody.arr ([] : List Nat), "created"⟩ :
          PageResp Nat)) =
      .err (.upstream 201 "created") ∧
    isSuccessStatus 201 := by
  exact ⟨rfl, by norm_num [isSuccessStatus], by norm_num [isSuccessStatus]⟩

/-- C5 (amended): within the modelled request budget, `_get_all` requests
pages at offsets `0, limit, 2·limit, …`; it fails with
`UpstreamError{status, body}` iff some requested page — all earlier ones
being full 200 list pages — returns a status *other than 200* (the code's
test, which also rejects other 2xx statuses); and it returns normally iff
such a prefix is followed by a 200 page that is shorter than the page-size
limit or not a list (both treated as end-of-data), the result accumulating
the pages' items in order. -/
theorem fetchAll_spec {Obj : Type} (limit fuel : Nat)
    (resps : Nat → PageResp Obj) :
    (∀ s b, fetchAll limit fuel resps = .err (.upstream s b) ↔
      ∃ k, k < fuel ∧ (∀ j < k, pageFull limit (resps (j * limit))) ∧
        (resps (k * limit)).status ≠ 200 ∧ s = (resps (k * limit)).status ∧
        b = (resps (k * limit)).text) ∧
    (∀ out, fetchAll limit fuel resps = .ok out ↔
      ∃ k, k < fuel ∧ (∀ j < k, pageFull limit (resps (j * limit))) ∧
        (resps (k * limit)).status = 200 ∧
        ((∃ p, (resps (k * limit)).body = .arr p ∧ p.length < limit ∧
            out = ((List.range k).map
              (fun j => pageItems (resps (j * limit)))).flatten ++ p) ∨
          ((resps (k * limit)).body = PageBody.notList ∧
            out = ((List.range k).map
              (fun j => pageItems (resps (j * limit)))).flatten))) := by
  constructor
  · intro s b
    have h := fetchAllAux_err_iff limit resps fuel 0 [] s b
    simpa [fetchAll] using h
  · intro out
    have h := fetchAllAux_ok_iff limit resps fuel 0 [] out
    simpa [fetchAll] using h

/-- C5, witness: with page size 2, a full page `[1, 2]` at offset 0 followed
by a short page `[3]` at offset 2 accumulates to `[1, 2, 3]`. -/
theorem fetchAll_spec_witness :
    fetchAll 2 10
        (fun skip =>
          if skip = 0 then (⟨200, PageBody.arr [1, 2], "ok"⟩ : PageResp Nat)
          else if skip = 2 then ⟨200, PageBody.arr [3], "ok"⟩
          else ⟨200, PageBody.notList, "ok"⟩) =
      .ok [1, 2, 3] :=
  ((fetchAll_spec 2 10
      (fun skip =>
        if skip = 0 then (⟨200, PageBody.arr [1, 2], "ok"⟩ : PageResp Nat)
        else if skip = 2 then ⟨200, PageBody.arr [3], "ok"⟩
        else ⟨200, PageBody.notList, "ok"⟩)).2 [1, 2, 3]).mpr
    ⟨1, by omega,
      by
        intro j hj
        interval_cases j
        exact ⟨rfl, by norm_num [pageFull]⟩,
      rfl, Or.inl ⟨[3], rfl, by norm_num, by decide⟩⟩

/-! Machinery for C10 and C2: vocabulary invariants and vector lengths. -/

/-- The index list of a vocabulary produced by insertions is exactly
`0..n-1` in order, and its keys are distinct. -/
def vocabWF (v : Vocab) : Prop :=
  v.map Prod.snd = List.range v.length ∧ (v.map Prod.fst).Nodup

theorem vocabGet_eq_none {v : Vocab} {t : MStr} (h : vocabGet v t = none) :
    t ∉ v.map Prod.fst := by
  intro hmem
  obtain ⟨p, hp, hpt⟩ := List.mem_map.mp hmem
  have hnone := List.find?_eq_none.mp (by
    unfold vocabGet at h
    exact Option.map_eq_none.mp h) p hp
  rw [hpt] at hnone
  simp at hnone

theorem vocabInsert_wf {v : Vocab} {t : MStr} (h : vocabWF v) :
    vocabWF (vocabInsert v t) := by
  unfold vocabInsert
  by_cases hg : (vocabGet v t).isSome
  · rw [if_pos hg]
    exact h
  · rw [if_neg hg]
    obtain ⟨h1, h2⟩ := h
    constructor
    · rw [List.map_append, h1]
      simp [List.range_succ]
    · rw [List.map_append]
      have ht : t ∉ v.map Prod.fst :=
        vocabGet_eq_none (Option.not_isSome_iff_eq_none.mp hg)
      refine List.Nodup.append h2 (List.nodup_singleton _) ?_
      intro a ha hat
      have ha2 : a = t := by simpa using hat
      exact ht (ha2 ▸ ha)

theorem foldl_vocabInsert_wf :
    ∀ (toks : List MStr) (v : Vocab), vocabWF v →
      vocabWF (toks.foldl vocabInsert v) := by
  intro toks
  induction toks with
  | nil => intro v h; exact h
  | cons t rest ih => intro v h; exact ih _ (vocabInsert_wf h)

theorem buildVocab_wf (objs : List CatObj) : vocabWF (buildVocab objs) := by
  unfold buildVocab
  have hgen : ∀ (l : List CatObj) (v : Vocab), vocabWF v →
      vocabWF (l.foldl
        (fun v2 o => (normList (o.skills.getD [])).foldl vocabInsert v2) v) := by
    intro l
    induction l with
    | nil => intro v h; exact h
    | cons o rest ih => intro v h; exact ih _ (foldl_vocabInsert_wf _ _ h)
  exact hgen objs [] ⟨rfl, List.nodup_nil⟩

theorem vocabGet_lt {v : Vocab} {t : MStr} {j : Nat} (hwf : vocabWF v)
    (h : vocabGet v t = some j) : j < v.length := by
  unfold vocabGet at h
  obtain ⟨p, hp, hpj⟩ := Option.map_eq_some.mp h
  have hmem : p ∈ v := List.mem_of_find?_eq_some hp
  have : p.2 ∈ v.map Prod.snd := List.mem_map.mpr ⟨p, hmem, rfl⟩
  rw [hwf.1] at this
  rw [← hpj]
  exact List.mem_range.mp this

theorem applyTokRow_length (v : Vocab) (row : List ℚ) (tok : MStr) :
    (applyTokRow v row tok).length = row.length := by
  unfold applyTokRow
  rcases h1 : vocabGet v tok with _ | j <;>
    rcases h2 : vocabGet v (mkS "c++") with _ | j2 <;>
      simp only [h1, h2] <;> split <;> simp

theorem applyTokVec_length (v : Vocab) (row : List ℚ) (tok : MStr) :
    (applyTokVec v row tok).length = row.length := by
  unfold applyTokVec
  rcases h1 : vocabGet v tok with _ | j <;>
    rcases h2 : vocabGet v (mkS "c++") with _ | j2 <;>
      simp only [h1, h2] <;> split <;> simp

theorem itemRow_length (v : Vocab) (o : CatObj) :
    (itemRow v o).length = v.length := by
  unfold itemRow
  have hgen : ∀ (toks : List MStr) (row : List ℚ),
      (toks.foldl (applyTokRow v) row).length = row.length := by
    intro toks
    induction toks with
    | nil => intro row; rfl
    | cons t rest ih =>
      intro row
      rw [List.foldl_cons, ih, applyTokRow_length]
  rw [hgen, List.length_replicate]

theorem skillsToVec_length (skills : List MStr) (v : Vocab) :
    (skillsToVec skills v).length = v.length := by
  unfold skillsToVec
  have hgen : ∀ (toks : List MStr) (row : List ℚ),
      (toks.foldl (applyTokVec v) row).length = row.length := by
    intro toks
    induction toks with
    | nil => intro row; rfl
    | cons t rest ih =>
      intro row
      rw [List.foldl_cons, ih, applyTokVec_length]
  rw [hgen, List.length_replicate]

/-- C10: the vocabulary built from a catalog maps its tokens injectively
onto exactly the indices `0..n-1` — the k-th inserted entry carries index
k (each new token receives the current size), so the index column is
`range n` and the keys are distinct — hence every successful lookup during
item or query vectorization returns an index `< n`; and the one-hot row
and query vectors have length exactly `n`, so every one-hot write is in
bounds. -/
theorem buildVocab_bounds (objs : List CatObj) :
    (buildVocab objs).map Prod.snd = List.range (buildVocab objs).length ∧
    ((buildVocab objs).map Prod.fst).Nodup ∧
    (∀ t j, vocabGet (buildVocab objs) t = some j →
      j < (buildVocab objs).length) ∧
    (∀ o, (itemRow (buildVocab objs) o).length = (buildVocab objs).length) ∧
    (∀ sk, (skillsToVec sk (buildVocab objs)).length =
      (buildVocab objs).length) :=
  ⟨(buildVocab_wf objs).1, (buildVocab_wf objs).2,
    fun _ _ h => vocabGet_lt (buildVocab_wf objs) h,
    fun o => itemRow_length _ o,
    fun sk => skillsToVec_length sk _⟩

/-- C10, witness: a one-item catalog with skills `["Python", "C++"]` builds
the vocabulary `{python ↦ 0, c++ ↦ 1}`; the lookup of `c++` is in bounds. -/
theorem buildVocab_bounds_witness :
    vocabGet (buildVocab [{ skills := some [mkS "Python", mkS "C++"] }])
        (mkS "c++") = some 1 ∧
    1 < (buildVocab [{ skills := some [mkS "Python", mkS "C++"] }]).length :=
  ⟨by decide,
    (buildVocab_bounds [{ skills := some [mkS "Python", mkS "C++"] }]).2.2.1
      (mkS "c++") 1 (by decide)⟩

/-- C7, counterexample: popularity is neither clamped nor defaulted for
every non-numeric value.  A negative member count passes through as a
negative popularity (`float(-5 or 0) == -5.0`), and a truthy non-numeric
member count (here the string `"n/a"`) raises `ValueError` — failing the
request with a 500 — instead of defaulting to 0. -/
theorem popOf_not_nonneg :
    popOf { member_count := some (.num (-5)) } = .ok (-5) ∧
    ¬ (0 : ℚ) ≤ (-5 : ℚ) ∧
    popOf { member_count := some (.str ['n', '/', 'a']) } =
      .error "ValueError" := by
  refine ⟨rfl, by norm_num, rfl⟩

/-- C7 (amended): popularity is the member-count value, falling back to the
like-count field only when the member-count *key* is absent; two absent
keys, an explicit `null`, or any falsy value give 0; a numeric value passes
through unchanged — so the popularity equals the upstream count and is
non-negative only when that count is — and a truthy non-numeric value makes
the conversion (and hence the request) fail. -/
theorem popOf_spec (o : CatObj) :
    (o.member_count = none ∧ o.like_count = none → popOf o = .ok 0) ∧
    (∀ q, o.member_count = some (.num q) → popOf o = .ok q) ∧
    (∀ q, o.member_count = none → o.like_count = some (.num q) →
      popOf o = .ok q) ∧
    (o.member_count = some .null → popOf o = .ok 0) ∧
    (∀ s, o.member_count = some (.str s) → s ≠ [] → parseFloat s = none →
      popOf o = .error "ValueError") := by
  refine ⟨?_, ?_, ?_, ?_, ?_⟩
  · rintro ⟨h1, h2⟩
    simp [popOf, h1, h2, truthy, toFloat]
  · intro q h
    by_cases hq : q = 0
    · subst hq
      simp [popOf, h, truthy, toFloat]
    · simp [popOf, h, truthy, hq, toFloat]
  · intro q h1 h2
    by_cases hq : q = 0
    · subst hq
      simp [popOf, h1, h2, truthy, toFloat]
    · simp [popOf, h1, h2, truthy, hq, toFloat]
  · intro h
    simp [popOf, h, truthy, toFloat]
  · intro s h hs hp
    simp [popOf, h, truthy, hs, toFloat, hp]

/-- C7, witness: a present numeric member count passes through; with the
member-count key absent, the like count is used. -/
theorem popOf_spec_witness :
    popOf { member_count := some (.num 7) } = .ok 7 ∧
    popOf { like_count := some (.num 3) } = .ok 3 :=
  ⟨(popOf_spec { member_count := some (.num 7) }).2.1 7 rfl,
    (popOf_spec { like_count := some (.num 3) }).2.2.1 3 rfl rfl⟩

/-! Machinery for C2: invariants of `cosineScores` output, agreement of the
cross-multiplied comparisons with the real-valued ones, and the lexsort
order. -/

theorem keyRel_total {β γ : Type} [LinearOrder β] [LinearOrder γ]
    (A : Nat → β) (B : Nat → γ) : IsTotal Nat (keyRel A B) := by
  constructor
  intro a b
  unfold keyRel
  rcases lt_trichotomy (A a) (A b) with h | h | h
  · exact Or.inr (Or.inl h)
  · rcases lt_trichotomy (B a) (B b) with h2 | h2 | h2
    · exact Or.inr (Or.inr ⟨h.symm, Or.inl h2⟩)
    · rcases Nat.le_total a b with hab | hab
      · exact Or.inl (Or.inr ⟨h, Or.inr ⟨h2, hab⟩⟩)
      · exact Or.inr (Or.inr ⟨h.symm, Or.inr ⟨h2.symm, hab⟩⟩)
    · exact Or.inl (Or.inr ⟨h, Or.inl h2⟩)
  · exact Or.inl (Or.inl h)

theorem keyRel_trans {β γ : Type} [LinearOrder β] [LinearOrder γ]
    (A : Nat → β) (B : Nat → γ) : IsTrans Nat (keyRel A B) := by
  constructor
  intro a b c hab hbc
  unfold keyRel at hab hbc ⊢
  rcases hab with h1 | ⟨h1, hb1⟩
  · rcases hbc with h2 | ⟨h2, _⟩
    · exact Or.inl (h2.trans h1)
    · exact Or.inl (h2 ▸ h1)
  · rcases hbc with h2 | ⟨h2, hb2⟩
    · exact Or.inl (by rw [h1]; exact h2)
    · refine Or.inr ⟨h1.trans h2, ?_⟩
      rcases hb1 with hb1 | ⟨hb1, hi1⟩
      · rcases hb2 with hb2 | ⟨hb2, _⟩
        · exact Or.inl (hb2.trans hb1)
        · exact Or.inl (hb2 ▸ hb1)
      · rcases hb2 with hb2 | ⟨hb2, hi2⟩
        · exact Or.inl (by rw [hb1]; exact hb2)
        · exact Or.inr ⟨hb1.trans hb2, hi1.trans hi2⟩

theorem keyRel_antisymm {β γ : Type} [LinearOrder β] [LinearOrder γ]
    (A : Nat → β) (B : Nat → γ) : IsAntisymm Nat (keyRel A B) := by
  constructor
  intro a b hab hba
  unfold keyRel at hab hba
  rcases hab with h1 | ⟨h1, hb1⟩
  · rcases hba with h2 | ⟨h2, _⟩
    · exact absurd (h1.trans h2) (lt_irrefl _)
    · exact absurd h1 (by rw [h2]; exact lt_irrefl _)
  · rcases hba with h2 | ⟨h2, hb2⟩
    · exact absurd h2 (by rw [h1]; exact lt_irrefl _)
    · rcases hb1 with hb1 | ⟨hb1, hi1⟩
      · rcases hb2 with hb2 | ⟨hb2, _⟩
        · exact absurd (hb1.trans hb2) (lt_irrefl _)
        · exact absurd hb1 (by rw [hb2]; exact lt_irrefl _)
      · rcases hb2 with hb2 | ⟨hb2, hi2⟩
        · exact absurd hb2 (by rw [hb1]; exact lt_irrefl _)
        · exact Nat.le_antisymm hi1 hi2

theorem getD_prop {γ : Type} {P : γ → Prop} {l : List γ} {d : γ}
    (hl : ∀ x ∈ l, P x) (hd : P d) (i : Nat) : P (l.getD i d) := by
  by_cases h : i < l.length
  · rw [List.getD_eq_getElem _ _ h]
    exact hl _ (List.getElem_mem h)
  · rw [List.getD_eq_default _ _ (le_of_not_lt h)]
    exact hd

theorem sumSq_nonneg (xs : List ℚ) : 0 ≤ sumSq xs := by
  apply List.sum_nonneg
  intro x hx
  obtain ⟨y, _, rfl⟩ := List.mem_map.mp hx
  exact mul_self_nonneg y

theorem sumSq_eq_zero {xs : List ℚ} (h : sumSq xs = 0) : ∀ x ∈ xs, x = 0 := by
  induction xs with
  | nil => intro x hx; simp at hx
  | cons y t ih =>
    have hexp : sumSq (y :: t) = y * y + sumSq t := by
      simp [sumSq]
    rw [hexp] at h
    have hy : y * y = 0 ∧ sumSq t = 0 :=
      (add_eq_zero_iff_of_nonneg (mul_self_nonneg y) (sumSq_nonneg t)).mp h
    intro x hx
    rcases List.mem_cons.mp hx with rfl | hx2
    · exact mul_self_eq_zero.mp hy.1
    · exact ih hy.2 x hx2

theorem dotL_nonneg {xs ys : List ℚ} (hx : ∀ x ∈ xs, 0 ≤ x)
    (hy : ∀ y ∈ ys, 0 ≤ y) : 0 ≤ dotL xs ys := by
  apply List.sum_nonneg
  intro z hz
  obtain ⟨⟨a, b⟩, hab, rfl⟩ := List.mem_map.mp hz
  obtain ⟨ha, hb⟩ := List.of_mem_zip hab
  exact mul_nonneg (hx a ha) (hy b hb)

theorem dotL_eq_zero_left {xs ys : List ℚ} (hx : ∀ x ∈ xs, x = 0) :
    dotL xs ys = 0 := by
  apply List.sum_eq_zero
  intro z hz
  obtain ⟨⟨a, b⟩, hab, rfl⟩ := List.mem_map.mp hz
  obtain ⟨ha, _⟩ := List.of_mem_zip hab
  rw [hx a ha, zero_mul]

theorem cosineScores_length (u : List ℚ) (M : List (List ℚ)) :
    (cosineScores u M).length = M.length := by
  unfold cosineScores
  by_cases h : M = []
  · rw [if_pos h, h]
    rfl
  · rw [if_neg h]
    by_cases h2 : sumSq u = 0 <;> simp [h2]

theorem cosineScores_inv {u : List ℚ} {M : List (List ℚ)}
    (hu : ∀ x ∈ u, 0 ≤ x) (hM : ∀ row ∈ M, ∀ x ∈ row, 0 ≤ x) (i : Nat) :
    scoreInv ((cosineScores u M).getD i ⟨0, 1⟩) := by
  apply getD_prop (P := scoreInv)
  · intro s hs
    unfold cosineScores at hs
    by_cases h : M = []
    · rw [if_pos h] at hs
      simp at hs
    · rw [if_neg h] at hs
      by_cases h2 : sumSq u = 0
      · rw [if_pos h2] at hs
        obtain ⟨row, _, rfl⟩ := List.mem_map.mp hs
        exact ⟨le_refl 0, one_pos⟩
      · rw [if_neg h2] at hs
        obtain ⟨row, hrow, rfl⟩ := List.mem_map.mp hs
        by_cases h3 : sumSq row * sumSq u = 0
        · rw [if_pos h3]
          exact ⟨dotL_nonneg (hM row hrow) hu, by norm_num⟩
        · rw [if_neg h3]
          refine ⟨dotL_nonneg (hM row hrow) hu, ?_⟩
          exact lt_of_le_of_ne
            (mul_nonneg (sumSq_nonneg row) (sumSq_nonneg u)) (Ne.symm h3)
  · exact ⟨le_refl 0, one_pos⟩

theorem leB_iff {a b : Score} (ha : scoreInv a) (hb : scoreInv b) :
    Score.leB a b = true ↔ Score.val a ≤ Score.val b := by
  unfold Score.leB Score.val
  rw [decide_eq_true_eq]
  obtain ⟨haN, haD⟩ := ha
  obtain ⟨hbN, hbD⟩ := hb
  have haD2 : (0 : ℝ) < (a.den2 : ℝ) := by exact_mod_cast haD
  have hbD2 : (0 : ℝ) < (b.den2 : ℝ) := by exact_mod_cast hbD
  have haN2 : (0 : ℝ) ≤ (a.num : ℝ) := by exact_mod_cast haN
  have hbN2 : (0 : ℝ) ≤ (b.num : ℝ) := by exact_mod_cast hbN
  have hsa : (0 : ℝ) < Real.sqrt (a.den2 : ℝ) := Real.sqrt_pos.mpr haD2
  have hsb : (0 : ℝ) < Real.sqrt (b.den2 : ℝ) := Real.sqrt_pos.mpr hbD2
  rw [div_le_div_iff hsa hsb]
  have hq : (a.num ^ 2 * b.den2 ≤ b.num ^ 2 * a.den2) ↔
      ((a.num : ℝ) ^ 2 * (b.den2 : ℝ) ≤ (b.num : ℝ) ^ 2 * (a.den2 : ℝ)) := by
    constructor
    · intro h
      exact_mod_cast h
    · intro h
      exact_mod_cast h
  rw [hq]
  have h1 : ((a.num : ℝ) * Real.sqrt (b.den2 : ℝ)) ^ 2 =
      (a.num : ℝ) ^ 2 * (b.den2 : ℝ) := by
    rw [mul_pow, Real.sq_sqrt hbD2.le]
  have h2 : ((b.num : ℝ) * Real.sqrt (a.den2 : ℝ)) ^ 2 =
      (b.num : ℝ) ^ 2 * (a.den2 : ℝ) := by
    rw [mul_pow, Real.sq_sqrt haD2.le]
  rw [← h1, ← h2]
  exact pow_le_pow_iff_left (n := 2) (mul_nonneg haN2 hsb.le)
    (mul_nonneg hbN2 hsa.le) (by norm_num)

theorem ltB_iff {a b : Score} (ha : scoreInv a) (hb : scoreInv b) :
    Score.ltB a b = true ↔ Score.val a < Score.val b := by
  unfold Score.ltB
  rw [Bool.and_eq_true, Bool.not_eq_true', ← Bool.not_eq_true,
    leB_iff ha hb, leB_iff hb ha, lt_iff_le_not_le]

theorem eqB_iff {a b : Score} (ha : scoreInv a) (hb : scoreInv b) :
    Score.eqB a b = true ↔ Score.val a = Score.val b := by
  unfold Score.eqB
  rw [Bool.and_eq_true, leB_iff ha hb, leB_iff hb ha, le_antisymm_iff]

theorem rankRel_iff {scores : List Score} {pops : List ℚ}
    (hinv : ∀ i, scoreInv (scores.getD i ⟨0, 1⟩)) (i j : Nat) :
    rankRel scores pops i j ↔
      keyRel (fun p => Score.val (scores.getD p ⟨0, 1⟩))
        (fun p => pops.getD p 0) i j := by
  unfold rankRel keyRel
  rw [ltB_iff (hinv j) (hinv i), eqB_iff (hinv i) (hinv j)]

theorem lexsortIdx_sorted {scores : List Score} {pops : List ℚ}
    (hinv : ∀ i, scoreInv (scores.getD i ⟨0, 1⟩)) :
    List.Sorted
      (keyRel (fun p => Score.val (scores.getD p ⟨0, 1⟩))
        (fun p => pops.getD p 0))
      (lexsortIdx scores pops) := by
  haveI hT : IsTotal Nat (rankRel scores pops) := by
    constructor
    intro a b
    rw [rankRel_iff hinv, rankRel_iff hinv]
    exact (keyRel_total _ _).total a b
  haveI hR : IsTrans Nat (rankRel scores pops) := by
    constructor
    intro a b c hab hbc
    rw [rankRel_iff hinv] at hab hbc ⊢
    exact (keyRel_trans _ _).trans a b c hab hbc
  have hs : List.Sorted (rankRel scores pops) (lexsortIdx scores pops) :=
    List.sorted_insertionSort _ _
  exact hs.imp fun h => (rankRel_iff hinv _ _).mp h

theorem mapM_ok_forall {A B : Type} (f : A → Except String B) :
    ∀ (l : List A) (rows : List B), l.mapM f = .ok rows →
      ∀ r ∈ rows, ∃ a ∈ l, f a = .ok r := by
  intro l
  induction l with
  | nil =>
    intro rows h r hr
    rw [List.mapM_nil] at h
    have : rows = [] := by
      cases rows with
      | nil => rfl
      | cons x t => simp [pure, Except.pure] at h
    subst this
    simp at hr
  | cons a t ih =>
    intro rows h r hr
    rw [List.mapM_cons] at h
    cases hfa : f a with
    | error e =>
      rw [hfa] at h
      simp [Bind.bind, Except.bind] at h
    | ok b =>
      rw [hfa] at h
      cases hmt : t.mapM f with
      | error e =>
        rw [hmt] at h
        simp [Bind.bind, Except.bind] at h
      | ok bs =>
        rw [hmt] at h
        simp only [Bind.bind, Except.bind, pure, Except.pure,
          Except.ok.injEq] at h
        rw [← h] at hr
        rcases List.mem_cons.mp hr with rfl | hr2
        · exact ⟨a, List.mem_cons_self a t, hfa⟩
        · obtain ⟨a2, ha2, hfa2⟩ := ih bs hmt r hr2
          exact ⟨a2, List.mem_cons_of_mem a ha2, hfa2⟩

theorem set_one_nonneg {l : List ℚ} (h : ∀ x ∈ l, 0 ≤ x) (j : Nat) :
    ∀ x ∈ l.set j 1, 0 ≤ x := fun x hx =>
  (List.mem_or_eq_of_mem_set hx).elim (h x) fun he => he ▸ zero_le_one

theorem applyTokRow_nonneg (v : Vocab) {row : List ℚ}
    (h : ∀ x ∈ row, 0 ≤ x) (tok : MStr) :
    ∀ x ∈ applyTokRow v row tok, 0 ≤ x := by
  unfold applyTokRow
  rcases h1 : vocabGet v tok with _ | j <;>
    rcases h2 : vocabGet v (mkS "c++") with _ | j2 <;>
      simp only [h1, h2] <;> split <;>
        first
        | exact h
        | exact set_one_nonneg h _
        | exact set_one_nonneg (set_one_nonneg h _) _

theorem applyTokVec_nonneg (v : Vocab) {row : List ℚ}
    (h : ∀ x ∈ row, 0 ≤ x) (tok : MStr) :
    ∀ x ∈ applyTokVec v row tok, 0 ≤ x := by
  unfold applyTokVec
  rcases h1 : vocabGet v tok with _ | j <;>
    rcases h2 : vocabGet v (mkS "c++") with _ | j2 <;>
      simp only [h1, h2] <;> split <;>
        first
        | exact h
        | exact set_one_nonneg h _
        | exact set_one_nonneg (set_one_nonneg h _) _

theorem itemRow_nonneg (v : Vocab) (o : CatObj) :
    ∀ x ∈ itemRow v o, 0 ≤ x := by
  unfold itemRow
  have hgen : ∀ (toks : List MStr) (row : List ℚ), (∀ x ∈ row, 0 ≤ x) →
      ∀ x ∈ toks.foldl (applyTokRow v) row, 0 ≤ x := by
    intro toks
    induction toks with
    | nil => intro row h; exact h
    | cons tk rest ih =>
      intro row h
      rw [List.foldl_cons]
      exact ih _ (applyTokRow_nonneg v h tk)
  exact hgen _ _ fun x hx => by simp [List.eq_of_mem_replicate hx]

theorem skillsToVec_nonneg (skills : List MStr) (v : Vocab) :
    ∀ x ∈ skillsToVec skills v, 0 ≤ x := by
  unfold skillsToVec
  have hgen : ∀ (toks : List MStr) (row : List ℚ), (∀ x ∈ row, 0 ≤ x) →
      ∀ x ∈ toks.foldl (applyTokVec v) row, 0 ≤ x := by
    intro toks
    induction toks with
    | nil => intro row h; exact h
    | cons tk rest ih =>
      intro row h
      rw [List.foldl_cons]
      exact ih _ (applyTokVec_nonneg v h tk)
  exact hgen _ _ fun x hx => by simp [List.eq_of_mem_replicate hx]

theorem oneHotMatrix_rows {objs : List CatObj} {v : Vocab}
    {M : List (List ℚ)} {ids : List Int} {pops : List ℚ}
    (h : oneHotMatrix objs v = .ok (M, ids, pops)) :
    ∀ row ∈ M, ∃ o ∈ objs, row = itemRow v o := by
  unfold oneHotMatrix at h
  by_cases hg : objs = [] ∨ v.length = 0
  · rw [if_pos hg] at h
    simp only [Except.ok.injEq, Prod.mk.injEq] at h
    intro row hrow
    rw [← h.1] at hrow
    simp at hrow
  · rw [if_neg hg] at h
    cases hmm : objs.mapM (fun o => do
        let p ← popOf o
        pure (itemRow v o, o.id.getD 0, p)) with
    | error e =>
      rw [hmm] at h
      simp [Bind.bind, Except.bind] at h
    | ok rows =>
      rw [hmm] at h
      simp only [Bind.bind, Except.bind, pure, Except.pure,
        Except.ok.injEq, Prod.mk.injEq] at h
      intro row hrow
      rw [← h.1] at hrow
      obtain ⟨r, hr, hr1⟩ := List.mem_map.mp hrow
      obtain ⟨o, ho, hfo⟩ := mapM_ok_forall _ objs rows hmm r hr
      refine ⟨o, ho, ?_⟩
      cases hpo : popOf o with
      | error e =>
        rw [hpo] at hfo
        simp [Bind.bind, Except.bind] at hfo
      | ok p =>
        rw [hpo] at hfo
        simp only [Bind.bind, Except.bind, pure, Except.pure,
          Except.ok.injEq] at hfo
        rw [← hr1, ← hfo]

theorem oneHotMatrix_rows_nonneg {objs : List CatObj} {v : Vocab}
    {M : List (List ℚ)} {ids : List Int} {pops : List ℚ}
    (h : oneHotMatrix objs v = .ok (M, ids, pops)) :
    ∀ row ∈ M, ∀ x ∈ row, 0 ≤ x := by
  intro row hrow
  obtain ⟨o, _, rfl⟩ := oneHotMatrix_rows h row hrow
  exact itemRow_nonneg v o

theorem lexsortIdx_perm (scores : List Score) (pops : List ℚ) :
    (lexsortIdx scores pops).Perm (List.range scores.length) :=
  List.perm_insertionSort _ _

theorem predictCommunities_eq {objs : List CatObj} {skills : List MStr}
    {limit : Option Int} {M : List (List ℚ)} {ids : List Int} {pops : List ℚ}
    (hM : oneHotMatrix objs (buildVocab objs) = .ok (M, ids, pops))
    (hMne : M ≠ []) :
    predictCommunities objs skills limit = .ok
      (((lexsortIdx (cosineScores (skillsToVec skills (buildVocab objs)) M)
          pops).take (limitK limit).toNat).map fun i =>
        (⟨ids.getD i 0,
          (cosineScores (skillsToVec skills (buildVocab objs)) M).getD i
            ⟨0, 1⟩⟩ : RecoItem)) := by
  simp only [predictCommunities]
  rw [hM]
  have hs : cosineScores (skillsToVec skills (buildVocab objs)) M ≠ [] := by
    intro h
    have h2 := cosineScores_length (skillsToVec skills (buildVocab objs)) M
    rw [h] at h2
    exact hMne (List.length_eq_zero.mp h2.symm)
  simp only [Bind.bind, Except.bind, if_neg hs, pure, Except.pure]

theorem cosineScores_val (u : List ℚ) (M : List (List ℚ)) (i : Nat)
    (hi : i < M.length) :
    Score.val ((cosineScores u M).getD i ⟨0, 1⟩) =
      if sumSq u = 0 ∨ sumSq (M.getD i []) = 0 then 0
      else ((dotL (M.getD i []) u : ℚ) : ℝ) /
        (Real.sqrt ((sumSq (M.getD i []) : ℚ) : ℝ) *
          Real.sqrt ((sumSq u : ℚ) : ℝ)) := by
  have hMne : M ≠ [] := by
    intro h
    rw [h] at hi
    simp at hi
  unfold cosineScores
  rw [if_neg hMne]
  by_cases hu2 : sumSq u = 0
  · rw [if_pos hu2, if_pos (Or.inl hu2)]
    have hgd : (M.map fun _ => (⟨0, 1⟩ : Score)).getD i ⟨0, 1⟩ = ⟨0, 1⟩ := by
      apply getD_prop (P := fun s => s = (⟨0, 1⟩ : Score))
      · intro s hs
        obtain ⟨_, _, rfl⟩ := List.mem_map.mp hs
        rfl
      · rfl
    rw [hgd]
    simp [Score.val]
  · rw [if_neg hu2]
    have hlen : i < (M.map fun row =>
        if sumSq row * sumSq u = 0 then
          (⟨dotL row u, (1 / 100000000) ^ 2⟩ : Score)
        else ⟨dotL row u, sumSq row * sumSq u⟩).length := by
      simpa using hi
    rw [List.getD_eq_getElem _ _ hlen, List.getElem_map]
    have hrow : M[i] = M.getD i [] := (List.getD_eq_getElem M [] hi).symm
    by_cases hr2 : sumSq M[i] * sumSq u = 0
    · rw [if_pos hr2]
      have hr0 : sumSq M[i] = 0 := by
        rcases mul_eq_zero.mp hr2 with h | h
        · exact h
        · exact absurd h hu2
      have hdot : dotL M[i] u = 0 :=
        dotL_eq_zero_left (sumSq_eq_zero hr0)
      rw [hrow] at hr0
      rw [if_pos (Or.inr hr0)]
      simp [Score.val, hdot]
    · rw [if_neg hr2]
      rw [hrow] at hr2
      have hcond : ¬ (sumSq u = 0 ∨ sumSq (M.getD i []) = 0) := by
        intro h
        rcases h with h | h
        · exact hu2 h
        · exact hr2 (by rw [h, zero_mul])
      rw [if_neg hcond]
      unfold Score.val
      rw [hrow]
      have hcast : ((sumSq (M.getD i []) * sumSq u : ℚ) : ℝ) =
          ((sumSq (M.getD i []) : ℚ) : ℝ) * ((sumSq u : ℚ) : ℝ) := by
        push_cast
        ring
      rw [hcast, Real.sqrt_mul (by exact_mod_cast sumSq_nonneg _)]

/-- C2, counterexample: with two catalog items and `limit = 0`, the claim's
`k = max(1, 0) = 1` predicts one entry, but the code's `req.limit or 50`
turns `0` into 50 and returns both items; and with a catalog whose items
have no skills (empty vocabulary), the code returns `[]` rather than
`max(1, k)` entries. -/
theorem predictCommunities_limit_zero_ignored :
    (∃ res, predictCommunities
        [{ id := some 1, skills := some [mkS "a"],
           member_count := some (.num 5) },
         { id := some 2, skills := some [mkS "b"],
           member_count := some (.num 7) }] [] (some 0) = .ok res ∧
      res.length = 2) ∧
    max 1 0 = 1 ∧ (1 : Nat) ≠ 2 ∧
    predictCommunities [{ id := some 3 }] [] (some 5) = .ok [] := by
  refine ⟨?_, rfl, by norm_num, rfl⟩
  have hM : oneHotMatrix
      [{ id := some 1, skills := some [mkS "a"],
         member_count := some (.num 5) },
       { id := some 2, skills := some [mkS "b"],
         member_count := some (.num 7) }]
      (buildVocab
        [{ id := some 1, skills := some [mkS "a"],
           member_count := some (.num 5) },
         { id := some 2, skills := some [mkS "b"],
           member_count := some (.num 7) }]) =
      .ok ([[1, 0], [0, 1]], [1, 2], [5, 7]) := rfl
  have h1 := @predictCommunities_eq _ ([] : List MStr) (some 0) _ _ _ hM
    (by decide)
  refine ⟨_, h1, ?_⟩
  rw [List.length_map, List.length_take,
    (lexsortIdx_perm _ _).length_eq, List.length_range,
    cosineScores_length]
  norm_num [limitK]

/-- C2 (amended): for a request whose catalog snapshot is non-empty with a
non-empty vocabulary and whose popularity fields all convert, the call
succeeds and returns the first `max(1, k)` entries — `k` being the limit,
with absent, null and `0` limits all becoming 50 — of a permutation of all
item indices sorted by (cosine score descending, popularity descending,
original index ascending; the stable `lexsort` order); each entry carries
the item's id and score, and the score's real value is the cosine
similarity `dot/(‖row‖·‖query‖)`, defined as 0 whenever either norm is
zero. -/
theorem predictCommunities_spec (objs : List CatObj) (skills : List MStr)
    (limit : Option Int) (M : List (List ℚ)) (ids : List Int) (pops : List ℚ)
    (hM : oneHotMatrix objs (buildVocab objs) = .ok (M, ids, pops))
    (hMne : M ≠ []) :
    ∃ res : List RecoItem,
      predictCommunities objs skills limit = .ok res ∧
      res.length = min (limitK limit).toNat M.length ∧
      1 ≤ (limitK limit).toNat ∧
      (limit = none ∨ limit = some 0 → (limitK limit).toNat = 50) ∧
      ∃ order : List Nat,
        order.Perm (List.range M.length) ∧
        List.Sorted
          (keyRel
            (fun p => Score.val
              ((cosineScores (skillsToVec skills (buildVocab objs)) M).getD p
                ⟨0, 1⟩))
            (fun p => pops.getD p 0)) order ∧
        res = (order.take (limitK limit).toNat).map (fun i =>
          ⟨ids.getD i 0,
            (cosineScores (skillsToVec skills (buildVocab objs)) M).getD i
              ⟨0, 1⟩⟩) ∧
        (∀ i, i < M.length →
          Score.val
            ((cosineScores (skillsToVec skills (buildVocab objs)) M).getD i
              ⟨0, 1⟩) =
            if sumSq (skillsToVec skills (buildVocab objs)) = 0 ∨
                sumSq (M.getD i []) = 0 then 0
            else ((dotL (M.getD i []) (skillsToVec skills (buildVocab objs)) :
                ℚ) : ℝ) /
              (Real.sqrt ((sumSq (M.getD i []) : ℚ) : ℝ) *
                Real.sqrt ((sumSq (skillsToVec skills (buildVocab objs)) :
                  ℚ) : ℝ))) := by
  have hinv : ∀ i, scoreInv
      ((cosineScores (skillsToVec skills (buildVocab objs)) M).getD i
        ⟨0, 1⟩) :=
    cosineScores_inv (skillsToVec_nonneg skills _)
      (oneHotMatrix_rows_nonneg hM)
  refine ⟨_, predictCommunities_eq hM hMne, ?_, ?_, ?_,
    lexsortIdx (cosineScores (skillsToVec skills (buildVocab objs)) M) pops,
    ?_, lexsortIdx_sorted hinv, rfl, ?_⟩
  · rw [List.length_map, List.length_take,
      (lexsortIdx_perm _ _).length_eq, List.length_range,
      cosineScores_length]
  · have h1 : (1 : Int) ≤ limitK limit := le_max_left _ _
    omega
  · intro h
    rcases h with h | h <;> subst h <;> decide
  · have hp := lexsortIdx_perm
      (cosineScores (skillsToVec skills (buildVocab objs)) M) pops
    rwa [cosineScores_length] at hp
  · intro i hi
    exact cosineScores_val _ M i hi

/-- C2, witness: two items with distinct single skills and popularities 5
and 7, an absent limit: both items are returned (`min(50, 2) = 2`). -/
theorem predictCommunities_spec_witness :
    ∃ res, predictCommunities
        [{ id := some 1, skills := some [mkS "a"],
           member_count := some (.num 5) },
         { id := some 2, skills := some [mkS "b"],
           member_count := some (.num 7) }] [mkS "a"] none = .ok res ∧
      res.length = 2 := by
  obtain ⟨res, h1, h2, -⟩ := predictCommunities_spec
    [{ id := some 1, skills := some [mkS "a"],
       member_count := some (.num 5) },
     { id := some 2, skills := some [mkS "b"],
       member_count := some (.num 7) }] [mkS "a"] none
    [[1, 0], [0, 1]] [1, 2] [5, 7] rfl (by decide)
  exact ⟨res, h1, by rw [h2]; norm_num [limitK]⟩

end MLServer
